import Mathlib

/-!
Shallow embedding of `dagraph.py`: a directed-graph library with
vertex/edge storage, transitive traversal queries, a uniqueness-checking
stack, and cycle detection via Tarjan's strongly connected components
algorithm.

Modelling conventions, chosen once and used throughout:
* Python dictionaries are insertion-ordered association lists
  (`alookup`, `aset`, `aupdate` below reproduce `d[k]`, `d[k] = v` and
  in-place mutation of a stored object).
* Python sets are duplicate-free lists; `set.add` is `setAdd`,
  `set.discard` is `setRemove`.
* Python lists and deques used as stacks (`append`/`pop` at the right
  end) are modelled with their top at the *head* of a Lean list, so
  `push` is cons, `pop` takes the head, and `stack.extend(l)` becomes
  `l.reverse ++ stack` (the last element of `l` is popped first).
* A raised exception is an `Err` value in the second component of the
  result; the first component is the object state at the moment of the
  raise (Python exceptions do not roll back prior mutations).
* The unbounded `while` loops of `get_all_successors` /
  `get_all_predecessors` and the recursion of `strongconnect` are
  modelled with an explicit fuel parameter; `none` means the
  computation did not finish within the given fuel.  For
  `strongconnect`, a fuel of `len(vertices)` is proved sufficient,
  matching the fuel used by the embedded `tarjans`.
* `random.shuffle` in `tarjans(use_rng=True)` is modelled by an
  explicit `order` parameter: `use_rng=False` corresponds to
  `order = g.keyList` (dict insertion order) and `use_rng=True` to an
  arbitrary permutation of it.
-/

/-- Keys of graph vertices.  Python keys are arbitrary hashable values;
the repository's tests use ints and strings.  Strings are kept as a
separate constructor because a Python string is `Iterable` (iterating
yields its one-character substrings), which `add_edges` dispatches on. -/
inductive Key where
  | intK : Int → Key
  | strK : List Char → Key
deriving DecidableEq

/-- The exceptions raised by `dagraph.py`, by raise site: duplicate
vertex key in `add_vertex`, unknown endpoint in `add_edge`, duplicate
element in `UniqueStack`, and popping/peeking an empty deque. -/
inductive Err where
  | dupKey : Key → Err
  | unknownKey : Key → Err
  | dupElem : Err
  | emptyStack : Err
deriving DecidableEq

/-- Lookup in an insertion-ordered dictionary (`d[k]` read). -/
def alookup {β : Type} : List (Key × β) → Key → Option β
  | [], _ => none
  | (k', b) :: rest, k => if k = k' then some b else alookup rest k

/-- Dictionary write `d[k] = b`: overwrite in place if the key is
present, otherwise append at the end (insertion order). -/
def aset {β : Type} : List (Key × β) → Key → β → List (Key × β)
  | [], k, b => [(k, b)]
  | (k', b') :: rest, k, b =>
    if k = k' then (k, b) :: rest else (k', b') :: aset rest k b

/-- In-place mutation of the object stored under `k` (a no-op when `k`
is absent; every use below is guarded by a presence check). -/
def aupdate {β : Type} : List (Key × β) → Key → (β → β) → List (Key × β)
  | [], _, _ => []
  | (k', b) :: rest, k, f =>
    if k = k' then (k', f b) :: rest else (k', b) :: aupdate rest k f

/-- `set.add`: insert if absent, keep unchanged otherwise. -/
def setAdd (x : Key) (s : List Key) : List Key :=
  if x ∈ s then s else s ++ [x]

/-- `set.discard`: remove the element if present. -/
def setRemove (x : Key) (s : List Key) : List Key :=
  s.filter (fun y => decide ¬(y = x))

/-- `set(iterable)`: collapse a list to its distinct elements. -/
def pySet (l : List Key) : List Key :=
  l.foldl (fun s x => setAdd x s) []

/-- `UniqueStack`: a stack of unique objects backed by a deque and a
mirror set.  The deque is modelled with its top at the head of
`stack`. -/
structure UniqueStack where
  stack : List Key
  stackset : List Key
deriving DecidableEq

/-- `UniqueStack.__init__(iterable)`: extend the deque and the set with
the input, then fail if the input contained repeats (the length of the
deque differs from the cardinality of the set). -/
def UniqueStack.make (l : List Key) : Option UniqueStack :=
  let st := l.reverse
  let ss := pySet l
  if st.length ≠ ss.length then none else some ⟨st, ss⟩

/-- `UniqueStack.push`: raise on a duplicate element (before any
mutation), otherwise append to the deque and record membership. -/
def UniqueStack.push (u : UniqueStack) (item : Key) : UniqueStack × Option Err :=
  if item ∈ u.stackset then (u, some .dupElem)
  else ({ stack := item :: u.stack, stackset := setAdd item u.stackset }, none)

/-- `UniqueStack.pop`: remove and return the tail element and discard
its membership; `none` models the `IndexError` of popping an empty
deque. -/
def UniqueStack.pop (u : UniqueStack) : Option (Key × UniqueStack) :=
  match u.stack with
  | [] => none
  | x :: rest => some (x, { stack := rest, stackset := setRemove x u.stackset })

/-- `UniqueStack.peek`: the tail element without removal. -/
def UniqueStack.peek (u : UniqueStack) : Option Key :=
  u.stack.head?

/-- `UniqueStack.__len__`. -/
def UniqueStack.size (u : UniqueStack) : Nat :=
  u.stack.length

/-- `UniqueStack.__contains__`: membership is answered by the set. -/
def UniqueStack.hasElem (u : UniqueStack) (k : Key) : Prop :=
  k ∈ u.stackset

/-- `DAGraphVertex`: key, opaque value, and the two adjacency sets. -/
structure DAGraphVertex where
  key : Key
  value : Option Int
  successors : List Key
  predecessors : List Key
deriving DecidableEq

/-- `DAGraph`: the self-loop flag and the vertex dictionary. -/
structure DAGraph where
  direct_cyclic : Bool
  vertices : List (Key × DAGraphVertex)
deriving DecidableEq

/-- `DAGraph.__init__`. -/
def DAGraph.empty : DAGraph := ⟨false, []⟩

/-- `DAGraph.__len__`. -/
def DAGraph.size (g : DAGraph) : Nat := g.vertices.length

/-- `DAGraph.__contains__`. -/
def DAGraph.hasKey (g : DAGraph) (k : Key) : Prop :=
  (alookup g.vertices k).isSome

instance (g : DAGraph) (k : Key) : Decidable (g.hasKey k) := by
  unfold DAGraph.hasKey; infer_instance

/-- `DAGraph.items()`: the list of vertex keys. -/
def DAGraph.keyList (g : DAGraph) : List Key := g.vertices.map Prod.fst

/-- `DAGraph.__getitem__`: the value stored under `k`; the outer `none`
models the `KeyError` on an absent key. -/
def DAGraph.getItemE (g : DAGraph) (k : Key) : Option (Option Int) :=
  (alookup g.vertices k).map (·.value)

/-- `DAGraph.add_vertex`: raise on a duplicate key, otherwise store a
fresh vertex with empty adjacency sets. -/
def DAGraph.add_vertex (g : DAGraph) (k : Key) (value : Option Int) :
    DAGraph × Option Err :=
  if (alookup g.vertices k).isSome then (g, some (.dupKey k))
  else ({ g with vertices := aset g.vertices k ⟨k, value, [], []⟩ }, none)

/-- `DAGraph.__setitem__`: delegates to `add_vertex`. -/
def DAGraph.setItemE (g : DAGraph) (k : Key) (value : Option Int) :
    DAGraph × Option Err :=
  g.add_vertex k value

/-- `DAGraph.add_edge dst src`: check `src` then `dst` for presence,
set the self-loop flag when `src = dst`, then
`self.vertices[src].add_edge_to(self.vertices[dst])`, which adds the
destination's `key` field to the source's successors and the source's
`key` field to the destination's predecessors. -/
def DAGraph.add_edge (g : DAGraph) (dst src : Key) : DAGraph × Option Err :=
  match alookup g.vertices src with
  | none => (g, some (.unknownKey src))
  | some sv =>
    match alookup g.vertices dst with
    | none => (g, some (.unknownKey dst))
    | some dv =>
      let g1 : DAGraph := if src = dst then { g with direct_cyclic := true } else g
      let vs1 := aupdate g1.vertices src
        (fun v => { v with successors := setAdd dv.key v.successors })
      let vs2 := aupdate vs1 dst
        (fun v => { v with predecessors := setAdd sv.key v.predecessors })
      ({ g1 with vertices := vs2 }, none)

/-- One positional argument of `add_edges`: either a single key or a
list of keys. -/
inductive EdgeArg where
  | single : Key → EdgeArg
  | list : List Key → EdgeArg
deriving DecidableEq

/-- Add one edge per element of a list, stopping at the first raised
exception and keeping the mutations made so far. -/
def DAGraph.addEdgeSeq (g : DAGraph) (dst : Key) : List Key → DAGraph × Option Err
  | [] => (g, none)
  | k :: ks =>
    match g.add_edge dst k with
    | (g1, none) => g1.addEdgeSeq dst ks
    | (g1, some e) => (g1, some e)

/-- The `isinstance(src, Iterable)` dispatch of `add_edges` on one
argument: an int is not iterable and is treated as a single key; a
string is iterable and contributes one edge per one-character
substring; a list contributes one edge per contained key. -/
def DAGraph.addOneArg (g : DAGraph) (dst : Key) : EdgeArg → DAGraph × Option Err
  | .single (.intK n) => g.add_edge dst (.intK n)
  | .single (.strK cs) => g.addEdgeSeq dst (cs.map (fun c => Key.strK [c]))
  | .list ks => g.addEdgeSeq dst ks

/-- `DAGraph.add_edges dst *srcs`: process the arguments left to right,
stopping at the first raised exception and keeping the mutations made
so far. -/
def DAGraph.add_edges (g : DAGraph) (dst : Key) : List EdgeArg → DAGraph × Option Err
  | [] => (g, none)
  | a :: rest =>
    match g.addOneArg dst a with
    | (g1, none) => g1.add_edges dst rest
    | (g1, some e) => (g1, some e)

/-- `DAGraph.get_direct_successors` (`none` models the `KeyError`). -/
def DAGraph.get_direct_successors (g : DAGraph) (k : Key) : Option (List Key) :=
  (alookup g.vertices k).map (·.successors)

/-- `DAGraph.get_direct_predecessors` (`none` models the `KeyError`). -/
def DAGraph.get_direct_predecessors (g : DAGraph) (k : Key) : Option (List Key) :=
  (alookup g.vertices k).map (·.predecessors)

/-- The successor set consulted by the traversal loops and by
`strongconnect` (`self.vertices[k].successors`; callers guarantee
presence, an absent key yields `[]`). -/
def gsuccs (g : DAGraph) (k : Key) : List Key :=
  ((alookup g.vertices k).map (·.successors)).getD []

/-- The predecessor set consulted by `get_all_predecessors`. -/
def gpreds (g : DAGraph) (k : Key) : List Key :=
  ((alookup g.vertices k).map (·.predecessors)).getD []

/-- The work-list loop shared verbatim by `get_all_successors` and
`get_all_predecessors`: while the stack is non-empty, pop an element,
extend the stack with all its neighbours (no visited check), and add
the element to the accumulated result set.  Fuel counts loop
iterations; `none` means the loop did not finish. -/
def traverseF (adj : Key → List Key) : Nat → List Key → List Key → Option (List Key)
  | 0, _, _ => none
  | _ + 1, [], acc => some acc
  | n + 1, e :: rest, acc => traverseF adj n ((adj e).reverse ++ rest) (setAdd e acc)

/-- `DAGraph.get_all_successors`, fuel-indexed. -/
def DAGraph.get_all_successorsF (g : DAGraph) (k : Key) (n : Nat) : Option (List Key) :=
  traverseF (gsuccs g) n (gsuccs g k).reverse []

/-- `DAGraph.get_all_predecessors`, fuel-indexed. -/
def DAGraph.get_all_predecessorsF (g : DAGraph) (k : Key) (n : Nat) : Option (List Key) :=
  traverseF (gpreds g) n (gpreds g k).reverse []

/-- The mutable state captured by the `strongconnect` closure:
`node_st` maps each visited key to its `(discovery index, low-link)`
pair, `idx` is the discovery counter, `stack` the on-path
`UniqueStack`, and `scc_list` the completed components. -/
structure TState where
  node_st : List (Key × (Nat × Nat))
  idx : Nat
  stack : UniqueStack
  scc_list : List (List Key)
deriving DecidableEq

/-- The initial state of one `tarjans` call. -/
def TState.init : TState := ⟨[], 0, ⟨[], []⟩, []⟩

/-- The `while True` pop loop closing a component: pop, append to the
component, stop once `v` itself was popped.  Arguments are the deque,
the mirror set and the component accumulator; `none` models popping an
empty deque. -/
def sccPopF (v : Key) : List Key → List Key → List Key →
    Option (List Key × List Key × List Key)
  | [], _, _ => none
  | w :: rest, ss, acc =>
    let ss1 := setRemove w ss
    let acc1 := acc ++ [w]
    if w = v then some (acc1, rest, ss1) else sccPopF v rest ss1 acc1

/-- One iteration of `strongconnect`'s successor loop, parameterised by
the recursive call `sc1` (supplied with one unit of fuel less): if `w`
is unvisited, recurse and fold `w`'s low-link into `v`'s; else if `w`
is on the stack, fold `w`'s discovery index into `v`'s low-link; else
do nothing. -/
def scStep (sc1 : Key → TState → Option TState) (v : Key) (s : TState) (w : Key) :
    Option TState :=
  if (alookup s.node_st w).isNone then
    match sc1 w s with
    | none => none
    | some s1 =>
      match alookup s1.node_st v, alookup s1.node_st w with
      | some (vidx, vll), some (_, wll) =>
        some { s1 with node_st := aset s1.node_st v (vidx, min vll wll) }
      | _, _ => none
  else if w ∈ s.stack.stackset then
    match alookup s.node_st v, alookup s.node_st w with
    | some (vidx, vll), some (widx, _) =>
      some { s with node_st := aset s.node_st v (vidx, min vll widx) }
    | _, _ => none
  else some s

/-- `strongconnect`'s `for w in self.vertices[v].successors` loop. -/
def scLoop (sc1 : Key → TState → Option TState) (v : Key) :
    List Key → TState → Option TState
  | [], s => some s
  | w :: ws, s =>
    match scStep sc1 v s w with
    | none => none
    | some s1 => scLoop sc1 v ws s1

/-- `strongconnect(v)`, fuel-indexed: record `(idx, idx)` for `v`,
increment the counter, push `v`, run the successor loop, and if `v`'s
final low-link equals its discovery index, pop the completed component
and append it to `scc_list`.  `none` means the fuel ran out (or an
internal operation that cannot fail in a reachable run failed). -/
def scF (g : DAGraph) : Nat → Key → TState → Option TState
  | 0, _, _ => none
  | fuel + 1, v, s =>
    let s1 : TState := { s with node_st := aset s.node_st v (s.idx, s.idx), idx := s.idx + 1 }
    match s1.stack.push v with
    | (_, some _) => none
    | (u2, none) =>
      match scLoop (scF g fuel) v (gsuccs g v) { s1 with stack := u2 } with
      | none => none
      | some s3 =>
        match alookup s3.node_st v with
        | none => none
        | some (vidx, vll) =>
          if vidx = vll then
            match sccPopF v s3.stack.stack s3.stack.stackset [] with
            | none => none
            | some (scc, st1, ss1) =>
              some { s3 with stack := ⟨st1, ss1⟩, scc_list := s3.scc_list ++ [scc] }
          else some s3

/-- The root loop of `tarjans`: call `strongconnect` on every
not-yet-visited key, in the given iteration order.  Each call receives
fuel `len(self.vertices)`, which is proved sufficient below. -/
def tarjansRootsF (g : DAGraph) : List Key → TState → Option TState
  | [], s => some s
  | e :: es, s =>
    match (if (alookup s.node_st e).isNone then scF g g.vertices.length e s else some s) with
    | none => none
    | some s1 => tarjansRootsF g es s1

/-- `DAGraph.tarjans`: run the root loop over `order` (the possibly
shuffled `list(self.vertices.keys())`) and return the component list.
The `getD []` is never exercised on a well-formed graph with a
permutation of its keys as `order`. -/
def DAGraph.tarjans (g : DAGraph) (order : List Key) : List (List Key) :=
  ((tarjansRootsF g order TState.init).map (·.scc_list)).getD []

/-- `DAGraph.is_cyclic`: the self-loop fast path, else compare the
number of components with the number of vertices. -/
def DAGraph.is_cyclic (g : DAGraph) (order : List Key) : Bool :=
  g.direct_cyclic || decide ((g.tarjans order).length ≠ g.vertices.length)

section SanityChecks

/-- keys used by the small concrete checks -/
def ka : Key := .intK 0
def kb : Key := .intK 1
def kc : Key := .intK 2

def gAB : DAGraph :=
  (((DAGraph.empty.add_vertex ka none).1.add_vertex kb none).1.add_edge kb ka).1

example : (gAB.tarjans gAB.keyList).length = 2 := by decide
example : gAB.is_cyclic gAB.keyList = false := by decide

def gCyc : DAGraph :=
  ((gAB.add_edge ka kb).1)

example : gCyc.is_cyclic gCyc.keyList = true := by decide
example : gCyc.direct_cyclic = false := by decide

def gLoop : DAGraph :=
  ((DAGraph.empty.add_vertex kc none).1.add_edge kc kc).1

example : gLoop.direct_cyclic = true := by decide
example : gLoop.is_cyclic gLoop.keyList = true := by decide
example : gAB.get_all_successorsF ka 5 = some [kb] := by decide
example : gAB.get_all_predecessorsF kb 5 = some [ka] := by decide
example : gCyc.get_all_successorsF ka 50 = none := by decide

end SanityChecks

/-! ### Basic lemmas about the dictionary and set models -/

theorem alookup_isSome_iff {β : Type} (m : List (Key × β)) (k : Key) :
    (alookup m k).isSome ↔ k ∈ m.map Prod.fst := by
  induction m with
  | nil => simp [alookup]
  | cons p rest ih =>
    obtain ⟨k', b⟩ := p
    by_cases h : k = k' <;> simp [alookup, h, ih]

theorem alookup_eq_none_iff {β : Type} (m : List (Key × β)) (k : Key) :
    alookup m k = none ↔ k ∉ m.map Prod.fst := by
  rw [← alookup_isSome_iff, Option.isSome_iff_exists]
  cases alookup m k <;> simp

theorem alookup_mem {β : Type} {m : List (Key × β)} {k : Key} {b : β}
    (h : alookup m k = some b) : (k, b) ∈ m := by
  induction m with
  | nil => simp [alookup] at h
  | cons p rest ih =>
    obtain ⟨k', b'⟩ := p
    by_cases hk : k = k'
    · subst hk
      simp [alookup] at h
      subst h; exact List.mem_cons_self _ _
    · simp [alookup, hk] at h
      exact List.mem_cons_of_mem _ (ih h)

theorem alookup_aset_self {β : Type} (m : List (Key × β)) (k : Key) (b : β) :
    alookup (aset m k b) k = some b := by
  induction m with
  | nil => simp [aset, alookup]
  | cons p rest ih =>
    obtain ⟨k', b'⟩ := p
    by_cases h : k = k' <;> simp [aset, alookup, h, ih]

theorem alookup_aset_other {β : Type} (m : List (Key × β)) {k k' : Key} (b : β)
    (h : k' ≠ k) : alookup (aset m k b) k' = alookup m k' := by
  induction m with
  | nil => simp [aset, alookup, h]
  | cons p rest ih =>
    obtain ⟨k'', b'⟩ := p
    by_cases h1 : k = k''
    · subst h1
      simp [aset, alookup, h]
    · by_cases h2 : k' = k'' <;> simp [aset, alookup, h1, h2, ih]

theorem map_fst_aset_present {β : Type} {m : List (Key × β)} {k : Key} (b : β)
    (h : k ∈ m.map Prod.fst) : (aset m k b).map Prod.fst = m.map Prod.fst := by
  induction m with
  | nil => simp at h
  | cons p rest ih =>
    obtain ⟨k', b'⟩ := p
    by_cases h1 : k = k'
    · subst h1; simp [aset]
    · simp only [List.map_cons, List.mem_cons] at h
      rcases h with h | h
      · exact absurd h h1
      · simp [aset, h1, ih h]

theorem map_fst_aset_absent {β : Type} {m : List (Key × β)} {k : Key} (b : β)
    (h : k ∉ m.map Prod.fst) : (aset m k b).map Prod.fst = m.map Prod.fst ++ [k] := by
  induction m with
  | nil => simp [aset]
  | cons p rest ih =>
    obtain ⟨k', b'⟩ := p
    simp only [List.map_cons, List.mem_cons] at h
    push_neg at h
    simp [aset, h.1, ih h.2]

theorem map_fst_aupdate {β : Type} (m : List (Key × β)) (k : Key) (f : β → β) :
    (aupdate m k f).map Prod.fst = m.map Prod.fst := by
  induction m with
  | nil => simp [aupdate]
  | cons p rest ih =>
    obtain ⟨k', b'⟩ := p
    by_cases h : k = k' <;> simp [aupdate, h, ih]

theorem alookup_aupdate_self {β : Type} {m : List (Key × β)} {k : Key} {b : β}
    (f : β → β) (h : alookup m k = some b) :
    alookup (aupdate m k f) k = some (f b) := by
  induction m with
  | nil => simp [alookup] at h
  | cons p rest ih =>
    obtain ⟨k', b'⟩ := p
    by_cases h1 : k = k'
    · subst h1
      simp [alookup] at h
      subst h
      simp [aupdate, alookup]
    · simp [alookup, h1] at h
      simp [aupdate, alookup, h1, ih h]

theorem alookup_aupdate_other {β : Type} (m : List (Key × β)) {k k' : Key}
    (f : β → β) (h : k' ≠ k) :
    alookup (aupdate m k f) k' = alookup m k' := by
  induction m with
  | nil => simp [aupdate]
  | cons p rest ih =>
    obtain ⟨k'', b'⟩ := p
    by_cases h1 : k = k''
    · subst h1
      simp [aupdate, alookup, h]
    · by_cases h2 : k' = k'' <;> simp [aupdate, alookup, h1, h2, ih]

theorem alookup_aupdate_absent {β : Type} {m : List (Key × β)} {k : Key}
    (f : β → β) (h : alookup m k = none) : aupdate m k f = m := by
  induction m with
  | nil => simp [aupdate]
  | cons p rest ih =>
    obtain ⟨k', b'⟩ := p
    by_cases h1 : k = k'
    · subst h1; simp [alookup] at h
    · simp [alookup, h1] at h
      simp [aupdate, h1, ih h]

theorem mem_setAdd {x y : Key} {s : List Key} :
    x ∈ setAdd y s ↔ x = y ∨ x ∈ s := by
  unfold setAdd
  split <;> rename_i h
  · constructor
    · exact Or.inr
    · rintro (rfl | hx)
      · exact h
      · exact hx
  · simp [List.mem_append, or_comm]

theorem setAdd_nodup {y : Key} {s : List Key} (h : s.Nodup) :
    (setAdd y s).Nodup := by
  unfold setAdd
  split <;> rename_i hy
  · exact h
  · simpa [List.nodup_append] using ⟨h, hy⟩

theorem mem_setRemove {x y : Key} {s : List Key} :
    x ∈ setRemove y s ↔ x ∈ s ∧ x ≠ y := by
  simp [setRemove]

theorem setRemove_nodup {y : Key} {s : List Key} (h : s.Nodup) :
    (setRemove y s).Nodup := List.Nodup.filter _ h

theorem gsuccs_eq {g : DAGraph} {k : Key} {v : DAGraphVertex}
    (h : alookup g.vertices k = some v) : gsuccs g k = v.successors := by
  simp [gsuccs, h]

theorem gpreds_eq {g : DAGraph} {k : Key} {v : DAGraphVertex}
    (h : alookup g.vertices k = some v) : gpreds g k = v.predecessors := by
  simp [gpreds, h]

/-! ### Claim C6: `add_vertex` and `add_edge` are atomic on failure -/

/-- Claim C6: `add_vertex` and `add_edge` are atomic on failure: whenever
either operation reports an error (duplicate key for `add_vertex`,
an absent endpoint for `add_edge`), the returned graph — vertex map,
adjacency sets and self-loop flag alike — is exactly the input graph. -/
theorem claim_C6 :
    (∀ (g : DAGraph) (k : Key) (val : Option Int),
      ((g.add_vertex k val).2).isSome → (g.add_vertex k val).1 = g) ∧
    (∀ (g : DAGraph) (dst src : Key),
      ((g.add_edge dst src).2).isSome → (g.add_edge dst src).1 = g) := by
  constructor
  · intro g k val h
    by_cases hk : (alookup g.vertices k).isSome
    · simp [DAGraph.add_vertex, hk]
    · simp [DAGraph.add_vertex, hk] at h
  · intro g dst src h
    unfold DAGraph.add_edge at *
    cases hs : alookup g.vertices src with
    | none => simp [hs]
    | some sv =>
      cases hd : alookup g.vertices dst with
      | none => simp [hs, hd]
      | some dv => simp [hs, hd] at h

/-- Claim C6 witness: a failing `add_vertex` (duplicate key `ka`) and a
failing `add_edge` (absent endpoint `kb`) on a concrete one-vertex graph
both leave the graph untouched. -/
theorem claim_C6_witness :
    ((DAGraph.empty.add_vertex ka none).1.add_vertex ka (some 3)).1
        = (DAGraph.empty.add_vertex ka none).1 ∧
    ((DAGraph.empty.add_vertex ka none).1.add_edge ka kb).1
        = (DAGraph.empty.add_vertex ka none).1 :=
  ⟨claim_C6.1 _ _ _ (by decide), claim_C6.2 _ _ _ (by decide)⟩

/-! ### Claim C9: `__setitem__` is `add_vertex`; no update-in-place -/

/-- Claim C9: writing `graph[key] = value` is exactly `add_vertex`: on an
absent key it inserts a fresh vertex carrying that value with empty
adjacency sets (flag and all other vertices untouched); on a present key
it fails with the duplicate-key error and leaves the graph unchanged, so
there is no update-in-place through this interface; and an indexed read
fails exactly on absent keys. -/
theorem claim_C9 :
    (∀ (g : DAGraph) (k : Key) (val : Option Int),
      g.setItemE k val = g.add_vertex k val) ∧
    (∀ (g : DAGraph) (k : Key) (val : Option Int), ¬ g.hasKey k →
      (g.setItemE k val).2 = none ∧
      alookup (g.setItemE k val).1.vertices k = some ⟨k, val, [], []⟩ ∧
      (g.setItemE k val).1.direct_cyclic = g.direct_cyclic ∧
      ∀ k', k' ≠ k → alookup (g.setItemE k val).1.vertices k' = alookup g.vertices k') ∧
    (∀ (g : DAGraph) (k : Key) (val : Option Int), g.hasKey k →
      (g.setItemE k val).2 = some (.dupKey k) ∧ (g.setItemE k val).1 = g) ∧
    (∀ (g : DAGraph) (k : Key), g.getItemE k = none ↔ ¬ g.hasKey k) := by
  refine ⟨fun g k val => rfl, ?_, ?_, ?_⟩
  · intro g k val h
    have hnone : (alookup g.vertices k).isSome = false := by
      simpa [DAGraph.hasKey] using h
    refine ⟨?_, ?_, ?_, ?_⟩
    · simp [DAGraph.setItemE, DAGraph.add_vertex, hnone]
    · simp [DAGraph.setItemE, DAGraph.add_vertex, hnone, alookup_aset_self]
    · simp [DAGraph.setItemE, DAGraph.add_vertex, hnone]
    · intro k' hk'
      simp [DAGraph.setItemE, DAGraph.add_vertex, hnone, alookup_aset_other _ _ hk']
  · intro g k val h
    have hsome : (alookup g.vertices k).isSome = true := by
      simpa [DAGraph.hasKey] using h
    constructor <;> simp [DAGraph.setItemE, DAGraph.add_vertex, hsome]
  · intro g k
    unfold DAGraph.getItemE DAGraph.hasKey
    cases alookup g.vertices k <;> simp

/-- Claim C9 witness: on a concrete one-vertex graph, writing a fresh key
inserts it, re-writing the same key fails and changes nothing, and
reading an absent key fails. -/
theorem claim_C9_witness :
    ((DAGraph.empty.setItemE ka (some 1)).1.setItemE ka (some 2)).2
        = some (.dupKey ka) ∧
    ((DAGraph.empty.setItemE ka (some 1)).1.setItemE ka (some 2)).1
        = (DAGraph.empty.setItemE ka (some 1)).1 ∧
    alookup (DAGraph.empty.setItemE ka (some 1)).1.vertices ka
        = some ⟨ka, some 1, [], []⟩ ∧
    (DAGraph.empty.setItemE ka (some 1)).1.getItemE kb = none := by
  have h2 := (claim_C9.2.2.1 (DAGraph.empty.setItemE ka (some 1)).1 ka (some 2)
    (by decide))
  have h1 := (claim_C9.2.1 DAGraph.empty ka (some 1) (by decide)).2.1
  have h4 := (claim_C9.2.2.2 (DAGraph.empty.setItemE ka (some 1)).1 kb).2
    (by decide)
  exact ⟨h2.1, h2.2, h1, h4⟩

/-! ### Claims C5 and C10: `add_edges` dispatch and non-atomicity -/

/-- Every stored vertex record carries its own dictionary key in its
`key` field (maintained by every constructor of vertices). -/
def KeysConsistent (g : DAGraph) : Prop :=
  ∀ p ∈ g.vertices, p.2.key = p.1

instance (g : DAGraph) : Decidable (KeysConsistent g) := by
  unfold KeysConsistent; infer_instance

theorem alookup_aupdate_get {β : Type} (m : List (Key × β)) (k : Key) (f : β → β) :
    alookup (aupdate m k f) k = (alookup m k).map f := by
  induction m with
  | nil => simp [aupdate, alookup]
  | cons p rest ih =>
    obtain ⟨k', b'⟩ := p
    by_cases h : k = k' <;> simp [aupdate, alookup, h, ih]

theorem mem_aupdate {β : Type} {m : List (Key × β)} {k : Key} {f : β → β}
    {p : Key × β} (h : p ∈ aupdate m k f) :
    ∃ b, (p.1, b) ∈ m ∧ (p.2 = b ∨ p.2 = f b) := by
  induction m with
  | nil => simp [aupdate] at h
  | cons q rest ih =>
    obtain ⟨k', b'⟩ := q
    by_cases h1 : k = k'
    · subst h1
      simp only [aupdate, if_pos rfl] at h
      rcases List.mem_cons.mp h with h2 | h2
      · exact ⟨b', by simp [congrArg Prod.fst h2], Or.inr (congrArg Prod.snd h2)⟩
      · exact ⟨p.2, List.mem_cons.mpr (Or.inr (by simpa using h2)), Or.inl rfl⟩
    · simp only [aupdate, if_neg h1] at h
      rcases List.mem_cons.mp h with h2 | h2
      · exact ⟨b', by simp [congrArg Prod.fst h2], Or.inl (congrArg Prod.snd h2)⟩
      · obtain ⟨b, hb, hor⟩ := ih h2
        exact ⟨b, List.mem_cons.mpr (Or.inr hb), hor⟩

theorem add_edge_fail_eq {g : DAGraph} {dst src : Key}
    (h : ((g.add_edge dst src).2).isSome) : (g.add_edge dst src).1 = g := by
  unfold DAGraph.add_edge at *
  cases hs : alookup g.vertices src with
  | none => simp [hs]
  | some sv =>
    cases hd : alookup g.vertices dst with
    | none => simp [hs, hd]
    | some dv => simp [hs, hd] at h

theorem keysConsistent_add_edge {g : DAGraph} {dst src : Key}
    (hkc : KeysConsistent g) : KeysConsistent (g.add_edge dst src).1 := by
  unfold DAGraph.add_edge
  cases hs : alookup g.vertices src with
  | none => exact hkc
  | some sv =>
    cases hd : alookup g.vertices dst with
    | none => exact hkc
    | some dv =>
      intro p hp
      obtain ⟨b1, hb1, hor1⟩ := mem_aupdate hp
      obtain ⟨b2, hb2, hor2⟩ := mem_aupdate hb1
      have hkc1 : ∀ q ∈ (if src = dst then
          { g with direct_cyclic := true } else g).vertices, q.2.key = q.1 := by
        split <;> exact hkc
      have hkey : b2.key = p.1 := hkc1 _ hb2
      have hor2a : b1 = b2 ∨
          b1 = { b2 with successors := setAdd dv.key b2.successors } := hor2
      have hb1key : b1.key = b2.key := by
        rcases hor2a with h2 | h2 <;> simp [h2]
      rcases hor1 with h1 | h1 <;> simp [h1, hb1key, hkey]

/-- On a successful `add_edge dst src`, the successor set of `src` gains
`dst` and every other successor set is unchanged. -/
theorem gsuccs_add_edge_ok {g : DAGraph} {dst src : Key}
    (hkc : KeysConsistent g) (h : (g.add_edge dst src).2 = none) (k : Key) :
    gsuccs (g.add_edge dst src).1 k
      = if k = src then setAdd dst (gsuccs g src) else gsuccs g k := by
  unfold DAGraph.add_edge at *
  cases hs : alookup g.vertices src with
  | none => simp [hs] at h
  | some sv =>
    cases hd : alookup g.vertices dst with
    | none => simp [hs, hd] at h
    | some dv =>
      have hdv : dv.key = dst := hkc _ (alookup_mem hd)
      have hflag : (if src = dst then { g with direct_cyclic := true } else g).vertices
          = g.vertices := by split <;> rfl
      by_cases hk : k = src
      · subst hk
        by_cases hkd : k = dst
        · subst hkd
          simp [hs, hd, gsuccs, alookup_aupdate_get, hflag, hdv]
        · simp [hs, hd, gsuccs, hflag,
            alookup_aupdate_other _ _ (by exact hkd),
            alookup_aupdate_get, hdv]
      · by_cases hkd : k = dst
        · subst hkd
          simp [hs, hd, gsuccs, hflag, alookup_aupdate_get,
            alookup_aupdate_other _ _ (by exact hk), hk]
        · simp [hs, hd, gsuccs, hflag,
            alookup_aupdate_other _ _ (by exact hkd),
            alookup_aupdate_other _ _ (by exact hk), hk]

theorem gsuccs_add_edge_mono {g : DAGraph} {dst src : Key}
    (hkc : KeysConsistent g) {x k : Key} (hx : x ∈ gsuccs g k) :
    x ∈ gsuccs (g.add_edge dst src).1 k := by
  cases he : (g.add_edge dst src).2 with
  | some e =>
    rw [add_edge_fail_eq (by simp [he])]
    exact hx
  | none =>
    rw [gsuccs_add_edge_ok hkc he k]
    split
    · rename_i hsrc
      subst hsrc
      exact mem_setAdd.mpr (Or.inr hx)
    · exact hx

theorem keysConsistent_addEdgeSeq {g : DAGraph} {dst : Key} {ks : List Key}
    (hkc : KeysConsistent g) : KeysConsistent (g.addEdgeSeq dst ks).1 := by
  induction ks generalizing g with
  | nil => exact hkc
  | cons k ks ih =>
    unfold DAGraph.addEdgeSeq
    cases he : g.add_edge dst k with
    | mk g1 e =>
      have hkc1 : KeysConsistent g1 := by
        have := @keysConsistent_add_edge g dst k hkc
        rwa [he] at this
      cases e with
      | none => exact ih hkc1
      | some err => exact hkc1

theorem gsuccs_addEdgeSeq_mono {g : DAGraph} {dst : Key} {ks : List Key}
    (hkc : KeysConsistent g) {x k : Key} (hx : x ∈ gsuccs g k) :
    x ∈ gsuccs (g.addEdgeSeq dst ks).1 k := by
  induction ks generalizing g with
  | nil => exact hx
  | cons k1 ks ih =>
    unfold DAGraph.addEdgeSeq
    cases he : g.add_edge dst k1 with
    | mk g1 e =>
      have hkc1 : KeysConsistent g1 := by
        have := @keysConsistent_add_edge g dst k1 hkc
        rwa [he] at this
      have hx1 : x ∈ gsuccs g1 k := by
        have := @gsuccs_add_edge_mono g dst k1 hkc x k hx
        rwa [he] at this
      cases e with
      | none => exact ih hkc1 hx1
      | some err => exact hx1

theorem keysConsistent_addOneArg {g : DAGraph} {dst : Key} {a : EdgeArg}
    (hkc : KeysConsistent g) : KeysConsistent (g.addOneArg dst a).1 := by
  cases a with
  | single k =>
    cases k with
    | intK n =>
      have := @keysConsistent_add_edge g dst (Key.intK n) hkc
      simpa [DAGraph.addOneArg] using this
    | strK cs => exact keysConsistent_addEdgeSeq hkc
  | list ks => exact keysConsistent_addEdgeSeq hkc

theorem gsuccs_addOneArg_mono {g : DAGraph} {dst : Key} {a : EdgeArg}
    (hkc : KeysConsistent g) {x k : Key} (hx : x ∈ gsuccs g k) :
    x ∈ gsuccs (g.addOneArg dst a).1 k := by
  cases a with
  | single kk =>
    cases kk with
    | intK n =>
      have := @gsuccs_add_edge_mono g dst (Key.intK n) hkc x k hx
      simpa [DAGraph.addOneArg] using this
    | strK cs => exact gsuccs_addEdgeSeq_mono hkc hx
  | list ks => exact gsuccs_addEdgeSeq_mono hkc hx

theorem gsuccs_add_edges_mono {g : DAGraph} {dst : Key} {args : List EdgeArg}
    (hkc : KeysConsistent g) {x k : Key} (hx : x ∈ gsuccs g k) :
    x ∈ gsuccs (g.add_edges dst args).1 k := by
  induction args generalizing g with
  | nil => exact hx
  | cons a rest ih =>
    unfold DAGraph.add_edges
    cases he : g.addOneArg dst a with
    | mk g1 e =>
      have hkc1 : KeysConsistent g1 := by
        have := @keysConsistent_addOneArg g dst a hkc
        rwa [he] at this
      have hx1 : x ∈ gsuccs g1 k := by
        have := @gsuccs_addOneArg_mono g dst a hkc x k hx
        rwa [he] at this
      cases e with
      | none => exact ih hkc1 hx1
      | some err => exact hx1

theorem addEdgeSeq_cons_ok {g : DAGraph} {dst k : Key} {ks : List Key}
    (h : (g.add_edge dst k).2 = none) :
    g.addEdgeSeq dst (k :: ks) = (g.add_edge dst k).1.addEdgeSeq dst ks := by
  rcases hge : g.add_edge dst k with ⟨g1, e1⟩
  rw [hge] at h
  simp only at h
  subst h
  simp only [DAGraph.addEdgeSeq]
  rw [hge]

theorem addEdgeSeq_cons_err {g : DAGraph} {dst k : Key} {ks : List Key} {e : Err}
    (h : (g.add_edge dst k).2 = some e) :
    g.addEdgeSeq dst (k :: ks) = ((g.add_edge dst k).1, some e) := by
  rcases hge : g.add_edge dst k with ⟨g1, e1⟩
  rw [hge] at h
  simp only at h
  subst h
  simp only [DAGraph.addEdgeSeq]
  rw [hge]

/-- A successful `addEdgeSeq` leaves `dst` in the successor set of every
listed source. -/
theorem addEdgeSeq_adds {g : DAGraph} {dst : Key} {ks : List Key}
    (hkc : KeysConsistent g) (h : (g.addEdgeSeq dst ks).2 = none) :
    ∀ s ∈ ks, dst ∈ gsuccs (g.addEdgeSeq dst ks).1 s := by
  induction ks generalizing g with
  | nil => simp
  | cons k1 ks ih =>
    intro s hs
    cases he : (g.add_edge dst k1).2 with
    | some err =>
      rw [addEdgeSeq_cons_err he] at h
      simp at h
    | none =>
      rw [addEdgeSeq_cons_ok he] at h ⊢
      have hkc1 : KeysConsistent (g.add_edge dst k1).1 :=
        keysConsistent_add_edge hkc
      rcases List.mem_cons.mp hs with hseq | hs2
      · subst hseq
        have hin : dst ∈ gsuccs (g.add_edge dst s).1 s := by
          rw [gsuccs_add_edge_ok hkc he s]
          simp [mem_setAdd]
        exact gsuccs_addEdgeSeq_mono hkc1 hin
      · exact ih hkc1 h s hs2

theorem addEdgeSeq_singleton {g : DAGraph} {dst k : Key} :
    g.addEdgeSeq dst [k] = g.add_edge dst k := by
  cases he : (g.add_edge dst k).2 with
  | none =>
    rw [addEdgeSeq_cons_ok he]
    exact Prod.ext rfl he.symm
  | some e =>
    rw [addEdgeSeq_cons_err he]
    exact Prod.ext rfl he.symm

theorem add_edges_cons_ok {g : DAGraph} {dst : Key} {a : EdgeArg}
    {rest : List EdgeArg} (h : (g.addOneArg dst a).2 = none) :
    g.add_edges dst (a :: rest) = (g.addOneArg dst a).1.add_edges dst rest := by
  rcases hga : g.addOneArg dst a with ⟨g1, e1⟩
  rw [hga] at h
  simp only at h
  subst h
  simp only [DAGraph.add_edges]
  rw [hga]

theorem add_edges_cons_err {g : DAGraph} {dst : Key} {a : EdgeArg}
    {rest : List EdgeArg} {e : Err} (h : (g.addOneArg dst a).2 = some e) :
    g.add_edges dst (a :: rest) = ((g.addOneArg dst a).1, some e) := by
  rcases hga : g.addOneArg dst a with ⟨g1, e1⟩
  rw [hga] at h
  simp only at h
  subst h
  simp only [DAGraph.add_edges]
  rw [hga]

/-! ### Claim C5 (corrected): the `add_edges` dispatch -/

/-- The graph exhibiting the failure of claim C5 as stated: it contains
the integer key `0` and the two-character string key `"ab"`, but not the
one-character keys `"a"`, `"b"`. -/
def gC5 : DAGraph :=
  ((DAGraph.empty.add_vertex ka none).1.add_vertex (.strK ['a', 'b']) none).1

/-- Claim C5 counterexample: for the single key `"ab"` — present in the
graph — `add_edges(0, "ab")` does *not* behave like `add_edge(0, "ab")`:
a Python string is `Iterable`, so `add_edges` iterates its characters
and fails on the absent key `"a"`, while `add_edge` succeeds and adds
the edge.  This refutes "for any single key src present in the graph,
add_edges(dst, src) has the same effect and the same per-element error
behaviour as add_edge(dst, src)". -/
theorem claim_C5_counterexample :
    (gC5.add_edges ka [.single (.strK ['a', 'b'])]).2
        = some (.unknownKey (.strK ['a'])) ∧
    (gC5.add_edge ka (.strK ['a', 'b'])).2 = none ∧
    (gC5.add_edges ka [.single (.strK ['a', 'b'])]).1
        ≠ (gC5.add_edge ka (.strK ['a', 'b'])).1 := by
  refine ⟨by decide, by decide, by decide⟩

/-- Claim C5 (amended): `add_edges` treats each iterable argument by
adding one edge per contained element with `add_edge`'s per-element
error semantics (a list argument contributes its keys, a string
argument its one-character substrings, since Python strings are
iterable); only a *non-iterable* single key (an int), or a
one-character string, is equivalent to a plain `add_edge` call — a
multi-character string key is not (see the counterexample). -/
theorem claim_C5 :
    (∀ (g : DAGraph) (dst : Key) (ks : List Key),
      g.addOneArg dst (.list ks) = g.addEdgeSeq dst ks) ∧
    (∀ (g : DAGraph) (dst : Key) (cs : List Char),
      g.addOneArg dst (.single (.strK cs))
        = g.addEdgeSeq dst (cs.map (fun c => Key.strK [c]))) ∧
    (∀ (g : DAGraph) (dst : Key) (n : Int),
      g.addOneArg dst (.single (.intK n)) = g.add_edge dst (.intK n)) ∧
    (∀ (g : DAGraph) (dst : Key) (n : Int),
      g.add_edges dst [.single (.intK n)] = g.add_edge dst (.intK n)) ∧
    (∀ (g : DAGraph) (dst : Key) (c : Char),
      g.add_edges dst [.single (.strK [c])] = g.add_edge dst (.strK [c])) := by
  refine ⟨fun g dst ks => rfl, fun g dst cs => rfl, fun g dst n => rfl, ?_, ?_⟩
  · intro g dst n
    cases he : (g.add_edge dst (.intK n)).2 with
    | none =>
      rw [add_edges_cons_ok (a := .single (.intK n)) he]
      exact Prod.ext rfl he.symm
    | some e =>
      rw [add_edges_cons_err (a := .single (.intK n)) he]
      exact Prod.ext rfl he.symm
  · intro g dst c
    have h1 : g.addOneArg dst (.single (.strK [c])) = g.add_edge dst (.strK [c]) := by
      show g.addEdgeSeq dst [Key.strK [c]] = _
      exact addEdgeSeq_singleton
    cases he : (g.add_edge dst (.strK [c])).2 with
    | none =>
      rw [add_edges_cons_ok (a := .single (.strK [c])) (by rw [h1]; exact he), h1]
      exact Prod.ext rfl he.symm
    | some e =>
      rw [add_edges_cons_err (a := .single (.strK [c])) (by rw [h1]; exact he), h1]
      exact Prod.ext rfl he.symm

/-! ### Claim C10: `add_edges` is not atomic across its arguments -/

/-- Claim C10: `add_edges` does not roll back: if a later argument fails
(absent key), the edges added for the earlier arguments remain — the
result is exactly the graph after the successful prefix, with `dst`
recorded as a successor of every earlier source. -/
theorem claim_C10 :
    ∀ (g : DAGraph) (dst : Key) (ks1 : List Key) (rest : List EdgeArg),
    KeysConsistent g →
    (g.addEdgeSeq dst ks1).2 = none →
    ((g.addEdgeSeq dst ks1).1.add_edges dst rest).2.isSome →
    g.add_edges dst (EdgeArg.list ks1 :: rest)
        = (g.addEdgeSeq dst ks1).1.add_edges dst rest ∧
    ∀ s ∈ ks1, dst ∈ gsuccs (g.add_edges dst (EdgeArg.list ks1 :: rest)).1 s := by
  intro g dst ks1 rest hkc hok _hfail
  have heq : g.add_edges dst (EdgeArg.list ks1 :: rest)
      = (g.addEdgeSeq dst ks1).1.add_edges dst rest :=
    add_edges_cons_ok (a := .list ks1) hok
  refine ⟨heq, ?_⟩
  intro s hs
  rw [heq]
  exact gsuccs_add_edges_mono (keysConsistent_addEdgeSeq hkc)
    (addEdgeSeq_adds hkc hok s hs)

/-- The concrete graph for the C10 witness: keys `0` and `1`, no edges. -/
def gC10 : DAGraph :=
  ((DAGraph.empty.add_vertex ka none).1.add_vertex kb none).1

/-- Claim C10 witness: `add_edges(0, [1], 5)` on a graph with keys
`{0, 1}` fails on the absent key `5` but keeps the edge `1 → 0` added
for the first argument. -/
theorem claim_C10_witness :
    gC10.add_edges ka [EdgeArg.list [kb], .single (.intK 5)]
        = (gC10.addEdgeSeq ka [kb]).1.add_edges ka [.single (.intK 5)] ∧
    ka ∈ gsuccs (gC10.add_edges ka [EdgeArg.list [kb], .single (.intK 5)]).1 kb := by
  have h := claim_C10 gC10 ka [kb] [.single (.intK 5)]
    (by decide) (by decide) (by decide)
  exact ⟨h.1, h.2 kb (by decide)⟩

/-! ### Claim C8: the `UniqueStack` invariant -/

theorem mem_pySetAux {l s : List Key} {x : Key} :
    x ∈ l.foldl (fun s x => setAdd x s) s ↔ x ∈ s ∨ x ∈ l := by
  induction l generalizing s with
  | nil => simp
  | cons y l ih =>
    simp only [List.foldl_cons, ih, mem_setAdd, List.mem_cons]
    tauto

theorem nodup_pySetAux {l s : List Key} (h : s.Nodup) :
    (l.foldl (fun s x => setAdd x s) s).Nodup := by
  induction l generalizing s with
  | nil => exact h
  | cons y l ih => exact ih (setAdd_nodup h)

theorem mem_pySet {l : List Key} {x : Key} : x ∈ pySet l ↔ x ∈ l := by
  unfold pySet
  rw [mem_pySetAux]
  simp

theorem nodup_pySet (l : List Key) : (pySet l).Nodup :=
  nodup_pySetAux List.nodup_nil

theorem pySet_length_eq_iff (l : List Key) :
    (pySet l).length = l.length ↔ l.Nodup := by
  have htf : (pySet l).toFinset = l.toFinset := by
    ext x
    simp [mem_pySet]
  have h1 : (pySet l).length = l.dedup.length := by
    rw [← List.toFinset_card_of_nodup (nodup_pySet l), htf, List.card_toFinset]
  rw [h1]
  constructor
  · intro hlen
    have := (List.dedup_sublist l).eq_of_length hlen
    rw [← this]
    exact List.nodup_dedup l
  · intro hnd
    rw [List.dedup_eq_self.mpr hnd]

/-- The Unique Ordered Stack invariant: the deque has no repeats, the
mirror set has no repeats, and the two have exactly the same members. -/
def USinv (u : UniqueStack) : Prop :=
  u.stack.Nodup ∧ u.stackset.Nodup ∧
    (∀ k ∈ u.stackset, k ∈ u.stack) ∧ (∀ k ∈ u.stack, k ∈ u.stackset)

instance (u : UniqueStack) : Decidable (USinv u) := by
  unfold USinv; infer_instance

/-- Claim C8: the `UniqueStack` keeps its membership set equal to the
set of elements of its sequence with all elements distinct: the
constructor establishes the invariant and fails exactly on inputs with
repeats, a duplicate push fails before any mutation, a fresh push and
any pop preserve the invariant. -/
theorem claim_C8 :
    (∀ l : List Key, ((UniqueStack.make l).isSome ↔ l.Nodup) ∧
      ∀ u, UniqueStack.make l = some u → USinv u) ∧
    (∀ (u : UniqueStack) (x : Key), x ∈ u.stackset →
      u.push x = (u, some .dupElem)) ∧
    (∀ (u : UniqueStack) (x : Key), USinv u → x ∉ u.stackset →
      (u.push x).2 = none ∧ USinv (u.push x).1) ∧
    (∀ (u u1 : UniqueStack) (x : Key), USinv u → u.pop = some (x, u1) →
      USinv u1) := by
  refine ⟨?_, ?_, ?_, ?_⟩
  · intro l
    have hkey : l.reverse.length = (pySet l).length ↔ l.Nodup := by
      rw [List.length_reverse]
      exact ⟨fun h => (pySet_length_eq_iff l).mp h.symm,
        fun h => ((pySet_length_eq_iff l).mpr h).symm⟩
    constructor
    · by_cases hlen : l.reverse.length ≠ (pySet l).length
      · simp only [UniqueStack.make]
        rw [if_pos hlen]
        simp only [Option.isSome_none, Bool.false_eq_true, false_iff]
        exact fun hnd => hlen (hkey.mpr hnd)
      · simp only [UniqueStack.make]
        rw [if_neg hlen]
        simp only [Option.isSome_some, true_iff]
        exact hkey.mp (not_not.mp hlen)
    · intro u hu
      simp only [UniqueStack.make] at hu
      by_cases hlen : l.reverse.length ≠ (pySet l).length
      · rw [if_pos hlen] at hu
        simp at hu
      · rw [if_neg hlen] at hu
        simp only [Option.some.injEq] at hu
        subst hu
        have hnd : l.Nodup := hkey.mp (not_not.mp hlen)
        exact ⟨by simpa using hnd, nodup_pySet l,
          fun k hk => by simpa using mem_pySet.mp hk,
          fun k hk => mem_pySet.mpr (by simpa using hk)⟩
  · intro u x hx
    simp [UniqueStack.push, hx]
  · intro u x hu hx
    obtain ⟨h1, h2, h3, h4⟩ := hu
    have hxs : x ∉ u.stack := fun hc => hx (h4 x hc)
    refine ⟨by simp [UniqueStack.push, hx], ?_, ?_, ?_, ?_⟩
    · simpa [UniqueStack.push, hx] using ⟨hxs, h1⟩
    · simp only [UniqueStack.push, if_neg hx]
      exact setAdd_nodup h2
    · intro k hk
      simp only [UniqueStack.push, if_neg hx] at hk ⊢
      rcases mem_setAdd.mp hk with rfl | hk2
      · exact List.mem_cons_self _ _
      · exact List.mem_cons_of_mem _ (h3 k hk2)
    · intro k hk
      simp only [UniqueStack.push, if_neg hx] at hk ⊢
      rcases List.mem_cons.mp hk with rfl | hk2
      · exact mem_setAdd.mpr (Or.inl rfl)
      · exact mem_setAdd.mpr (Or.inr (h4 k hk2))
  · intro u u1 x hu hpop
    obtain ⟨h1, h2, h3, h4⟩ := hu
    unfold UniqueStack.pop at hpop
    cases hst : u.stack with
    | nil => rw [hst] at hpop; simp at hpop
    | cons y rest =>
      rw [hst] at hpop
      simp only [Option.some.injEq, Prod.mk.injEq] at hpop
      obtain ⟨rfl, rfl⟩ := hpop
      rw [hst] at h1 h3 h4
      refine ⟨(List.nodup_cons.mp h1).2, setRemove_nodup h2, ?_, ?_⟩
      · intro k hk
        obtain ⟨hk1, hk2⟩ := mem_setRemove.mp hk
        rcases List.mem_cons.mp (h3 k hk1) with rfl | hk3
        · exact absurd rfl hk2
        · exact hk3
      · intro k hk
        refine mem_setRemove.mpr ⟨h4 k (List.mem_cons_of_mem _ hk), ?_⟩
        intro hkx
        subst hkx
        exact (List.nodup_cons.mp h1).1 hk

/-- Claim C8 witness: constructing from `[0, 1]` succeeds and satisfies
the invariant, constructing from `[0, 0]` fails, pushing the duplicate
`0` fails and leaves the stack unchanged, pushing the fresh `2` and
popping preserve the invariant. -/
theorem claim_C8_witness :
    UniqueStack.make [ka, ka] = none ∧
    USinv ⟨[kb, ka], [ka, kb]⟩ ∧
    UniqueStack.push ⟨[kb, ka], [ka, kb]⟩ ka
        = (⟨[kb, ka], [ka, kb]⟩, some .dupElem) ∧
    (UniqueStack.push ⟨[kb, ka], [ka, kb]⟩ kc).2 = none ∧
    USinv (UniqueStack.push ⟨[kb, ka], [ka, kb]⟩ kc).1 ∧
    USinv ⟨[ka], setRemove kb [ka, kb]⟩ := by
  have hmk : UniqueStack.make [ka, ka] = none := by
    have h := (claim_C8.1 [ka, ka]).1
    cases hc : UniqueStack.make [ka, ka] with
    | none => rfl
    | some u =>
      rw [hc] at h
      simp only [Option.isSome_some, true_iff] at h
      exact absurd h (by decide)
  have hinv : USinv ⟨[kb, ka], [ka, kb]⟩ :=
    (claim_C8.1 [ka, kb]).2 _ (by decide)
  have hdup := claim_C8.2.1 ⟨[kb, ka], [ka, kb]⟩ ka (by decide)
  have hfresh := claim_C8.2.2.1 ⟨[kb, ka], [ka, kb]⟩ kc hinv (by decide)
  have hpop := claim_C8.2.2.2 ⟨[kb, ka], [ka, kb]⟩
    ⟨[ka], setRemove kb [ka, kb]⟩ kb hinv (by decide)
  exact ⟨hmk, hinv, hdup, hfresh.1, hfresh.2, hpop⟩

/-! ### Graph well-formedness: the invariant of API-reachable graphs -/

theorem alookup_of_mem_nodup {β : Type} {m : List (Key × β)} {p : Key × β}
    (hnd : (m.map Prod.fst).Nodup) (hp : p ∈ m) :
    alookup m p.1 = some p.2 := by
  induction m with
  | nil => simp at hp
  | cons q rest ih =>
    obtain ⟨k', b'⟩ := q
    simp only [List.map_cons, List.nodup_cons] at hnd
    rcases List.mem_cons.mp hp with rfl | hp2
    · simp [alookup]
    · have hne : p.1 ≠ k' := by
        intro hc
        exact hnd.1 (hc ▸ List.mem_map_of_mem Prod.fst hp2)
      simp [alookup, hne, ih hnd.2 hp2]

theorem mem_aset {β : Type} {m : List (Key × β)} {k : Key} {b : β}
    {p : Key × β} (h : p ∈ aset m k b) : p = (k, b) ∨ p ∈ m := by
  induction m with
  | nil => simpa [aset] using h
  | cons q rest ih =>
    obtain ⟨k', b'⟩ := q
    by_cases h1 : k = k'
    · subst h1
      simp only [aset, if_pos rfl] at h
      rcases List.mem_cons.mp h with h2 | h2
      · exact Or.inl h2
      · exact Or.inr (List.mem_cons_of_mem _ h2)
    · simp only [aset, if_neg h1] at h
      rcases List.mem_cons.mp h with h2 | h2
      · exact Or.inr (by simp [h2])
      · rcases ih h2 with h3 | h3
        · exact Or.inl h3
        · exact Or.inr (List.mem_cons_of_mem _ h3)

/-- A successful `add_edge` presupposes both endpoints. -/
theorem add_edge_ok_present {g : DAGraph} {dst src : Key}
    (h : (g.add_edge dst src).2 = none) :
    (alookup g.vertices src).isSome ∧ (alookup g.vertices dst).isSome := by
  unfold DAGraph.add_edge at h
  cases hs : alookup g.vertices src with
  | none => rw [hs] at h; simp at h
  | some sv =>
    cases hd : alookup g.vertices dst with
    | none => rw [hs, hd] at h; simp at h
    | some dv => simp

theorem add_edge_flag_ok {g : DAGraph} {dst src : Key}
    (h : (g.add_edge dst src).2 = none) :
    (g.add_edge dst src).1.direct_cyclic
      = (g.direct_cyclic || decide (src = dst)) := by
  unfold DAGraph.add_edge at *
  cases hs : alookup g.vertices src with
  | none => rw [hs] at h; simp at h
  | some sv =>
    cases hd : alookup g.vertices dst with
    | none => rw [hs, hd] at h; simp at h
    | some dv =>
      simp only [hs, hd]
      by_cases hsd : src = dst <;> simp [hsd]

theorem add_edge_mapfst (g : DAGraph) (dst src : Key) :
    (g.add_edge dst src).1.vertices.map Prod.fst = g.vertices.map Prod.fst := by
  unfold DAGraph.add_edge
  cases hs : alookup g.vertices src with
  | none => rfl
  | some sv =>
    cases hd : alookup g.vertices dst with
    | none => rfl
    | some dv =>
      have hflag : (if src = dst then { g with direct_cyclic := true } else g).vertices
          = g.vertices := by split <;> rfl
      simp [map_fst_aupdate, hflag]

/-- On a successful `add_edge dst src`, the predecessor set of `dst`
gains `src` and every other predecessor set is unchanged. -/
theorem gpreds_add_edge_ok {g : DAGraph} {dst src : Key}
    (hkc : KeysConsistent g) (h : (g.add_edge dst src).2 = none) (k : Key) :
    gpreds (g.add_edge dst src).1 k
      = if k = dst then setAdd src (gpreds g dst) else gpreds g k := by
  unfold DAGraph.add_edge at *
  cases hs : alookup g.vertices src with
  | none => rw [hs] at h; simp at h
  | some sv =>
    cases hd : alookup g.vertices dst with
    | none => rw [hs, hd] at h; simp at h
    | some dv =>
      have hsv : sv.key = src := hkc _ (alookup_mem hs)
      have hflag : (if src = dst then { g with direct_cyclic := true } else g).vertices
          = g.vertices := by split <;> rfl
      by_cases hk : k = dst
      · subst hk
        by_cases hks : k = src
        · subst hks
          simp [hs, hd, gpreds, alookup_aupdate_get, hflag, hsv]
        · simp [hs, hd, gpreds, hflag, alookup_aupdate_get,
            alookup_aupdate_other _ _ (by exact hks), hsv]
      · by_cases hks : k = src
        · subst hks
          simp [hs, hd, gpreds, hflag, alookup_aupdate_get,
            alookup_aupdate_other _ _ (by exact hk), hk]
        · simp [hs, hd, gpreds, hflag,
            alookup_aupdate_other _ _ (by exact hk),
            alookup_aupdate_other _ _ (by exact hks), hk]

theorem gsuccs_add_vertex (g : DAGraph) (k0 : Key) (val : Option Int) (k : Key) :
    gsuccs (g.add_vertex k0 val).1 k = gsuccs g k := by
  unfold DAGraph.add_vertex
  by_cases hp : (alookup g.vertices k0).isSome
  · simp [hp]
  · have hnone : alookup g.vertices k0 = none := by
      cases hc : alookup g.vertices k0 with
      | none => rfl
      | some v => rw [hc] at hp; simp at hp
    by_cases hk : k = k0
    · subst hk
      simp [hp, gsuccs, alookup_aset_self, hnone]
    · simp [hp, gsuccs, alookup_aset_other _ _ (by exact hk)]

theorem gpreds_add_vertex (g : DAGraph) (k0 : Key) (val : Option Int) (k : Key) :
    gpreds (g.add_vertex k0 val).1 k = gpreds g k := by
  unfold DAGraph.add_vertex
  by_cases hp : (alookup g.vertices k0).isSome
  · simp [hp]
  · have hnone : alookup g.vertices k0 = none := by
      cases hc : alookup g.vertices k0 with
      | none => rfl
      | some v => rw [hc] at hp; simp at hp
    by_cases hk : k = k0
    · subst hk
      simp [hp, gpreds, alookup_aset_self, hnone]
    · simp [hp, gpreds, alookup_aset_other _ _ (by exact hk)]

theorem add_vertex_flag (g : DAGraph) (k0 : Key) (val : Option Int) :
    (g.add_vertex k0 val).1.direct_cyclic = g.direct_cyclic := by
  unfold DAGraph.add_vertex
  by_cases hp : (alookup g.vertices k0).isSome <;> simp [hp]

/-- The invariant shared by every graph reachable through the public
API: keys are unique and consistent, adjacency sets are duplicate-free
and mention only present keys, the successor/predecessor sets are
symmetric, and the self-loop flag is set exactly when a self-loop edge
exists. -/
structure WF (g : DAGraph) : Prop where
  nodupKeys : (g.vertices.map Prod.fst).Nodup
  kc : KeysConsistent g
  succClosed : ∀ k x, x ∈ gsuccs g k → x ∈ g.vertices.map Prod.fst
  predClosed : ∀ k x, x ∈ gpreds g k → x ∈ g.vertices.map Prod.fst
  succNodup : ∀ k, (gsuccs g k).Nodup
  predNodup : ∀ k, (gpreds g k).Nodup
  sym : ∀ k k2, k2 ∈ gsuccs g k ↔ k ∈ gpreds g k2
  flag : g.direct_cyclic = true ↔ ∃ k, k ∈ gsuccs g k

theorem wf_empty : WF DAGraph.empty := by
  refine ⟨by simp [DAGraph.empty], by intro p hp; simp [DAGraph.empty] at hp,
    ?_, ?_, ?_, ?_, ?_, ?_⟩ <;>
    simp [DAGraph.empty, gsuccs, gpreds, alookup]

theorem wf_add_vertex {g : DAGraph} (hwf : WF g) (k0 : Key) (val : Option Int) :
    WF (g.add_vertex k0 val).1 := by
  by_cases hp : (alookup g.vertices k0).isSome
  · have : (g.add_vertex k0 val).1 = g := by
      unfold DAGraph.add_vertex
      simp [hp]
    rw [this]
    exact hwf
  · have hnone : alookup g.vertices k0 = none := by
      cases hc : alookup g.vertices k0 with
      | none => rfl
      | some v => rw [hc] at hp; simp at hp
    have hveq : (g.add_vertex k0 val).1.vertices
        = aset g.vertices k0 ⟨k0, val, [], []⟩ := by
      unfold DAGraph.add_vertex
      simp [hp]
    have hnotin : k0 ∉ g.vertices.map Prod.fst := (alookup_eq_none_iff _ _).mp hnone
    have hmap : (g.add_vertex k0 val).1.vertices.map Prod.fst
        = g.vertices.map Prod.fst ++ [k0] := by
      rw [hveq]
      exact map_fst_aset_absent _ hnotin
    refine ⟨?_, ?_, ?_, ?_, ?_, ?_, ?_, ?_⟩
    · rw [hmap, List.nodup_append]
      refine ⟨hwf.nodupKeys, List.nodup_singleton _, ?_⟩
      intro a ha hb
      simp only [List.mem_singleton] at hb
      subst hb
      exact hnotin ha
    · intro p hpp
      rw [hveq] at hpp
      rcases mem_aset hpp with hq | hpm
      · rw [hq]
      · exact hwf.kc _ hpm
    · intro k x hx
      rw [gsuccs_add_vertex] at hx
      rw [hmap]
      exact List.mem_append_left _ (hwf.succClosed k x hx)
    · intro k x hx
      rw [gpreds_add_vertex] at hx
      rw [hmap]
      exact List.mem_append_left _ (hwf.predClosed k x hx)
    · intro k
      rw [gsuccs_add_vertex]
      exact hwf.succNodup k
    · intro k
      rw [gpreds_add_vertex]
      exact hwf.predNodup k
    · intro k k2
      rw [gsuccs_add_vertex, gpreds_add_vertex]
      exact hwf.sym k k2
    · rw [add_vertex_flag]
      constructor
      · intro hf
        obtain ⟨k, hk⟩ := hwf.flag.mp hf
        exact ⟨k, by rwa [gsuccs_add_vertex]⟩
      · intro ⟨k, hk⟩
        rw [gsuccs_add_vertex] at hk
        exact hwf.flag.mpr ⟨k, hk⟩

theorem wf_add_edge {g : DAGraph} (hwf : WF g) (dst src : Key) :
    WF (g.add_edge dst src).1 := by
  cases he : (g.add_edge dst src).2 with
  | some e =>
    rw [add_edge_fail_eq (by simp [he])]
    exact hwf
  | none =>
    have hpres := add_edge_ok_present he
    have hsrc : src ∈ g.vertices.map Prod.fst := (alookup_isSome_iff _ _).mp hpres.1
    have hdst : dst ∈ g.vertices.map Prod.fst := (alookup_isSome_iff _ _).mp hpres.2
    have hs := gsuccs_add_edge_ok hwf.kc he
    have hpr := gpreds_add_edge_ok hwf.kc he
    refine ⟨?_, keysConsistent_add_edge hwf.kc, ?_, ?_, ?_, ?_, ?_, ?_⟩
    · rw [add_edge_mapfst]
      exact hwf.nodupKeys
    · intro k x hx
      rw [hs k] at hx
      rw [add_edge_mapfst]
      by_cases hk : k = src
      · rw [if_pos hk] at hx
        rcases mem_setAdd.mp hx with rfl | hx2
        · exact hdst
        · exact hwf.succClosed src x hx2
      · rw [if_neg hk] at hx
        exact hwf.succClosed k x hx
    · intro k x hx
      rw [hpr k] at hx
      rw [add_edge_mapfst]
      by_cases hk : k = dst
      · rw [if_pos hk] at hx
        rcases mem_setAdd.mp hx with rfl | hx2
        · exact hsrc
        · exact hwf.predClosed dst x hx2
      · rw [if_neg hk] at hx
        exact hwf.predClosed k x hx
    · intro k
      rw [hs k]
      by_cases hk : k = src
      · rw [if_pos hk]; exact setAdd_nodup (hwf.succNodup src)
      · rw [if_neg hk]; exact hwf.succNodup k
    · intro k
      rw [hpr k]
      by_cases hk : k = dst
      · rw [if_pos hk]; exact setAdd_nodup (hwf.predNodup dst)
      · rw [if_neg hk]; exact hwf.predNodup k
    · intro k k2
      rw [hs k, hpr k2]
      by_cases hk : k = src <;> by_cases hk2 : k2 = dst
      · rw [if_pos hk, if_pos hk2, mem_setAdd, mem_setAdd]
        simp [hk, hk2]
      · rw [if_pos hk, if_neg hk2, mem_setAdd, ← hk]
        constructor
        · rintro (rfl | h2)
          · exact absurd rfl hk2
          · exact (hwf.sym k k2).mp h2
        · intro h2
          exact Or.inr ((hwf.sym k k2).mpr h2)
      · rw [if_neg hk, if_pos hk2, mem_setAdd, ← hk2]
        constructor
        · intro h2
          exact Or.inr ((hwf.sym k k2).mp h2)
        · rintro (rfl | h2)
          · exact absurd rfl hk
          · exact (hwf.sym k k2).mpr h2
      · rw [if_neg hk, if_neg hk2]
        exact hwf.sym k k2
    · rw [add_edge_flag_ok he]
      constructor
      · intro hf
        rcases Bool.or_eq_true_iff.mp hf with hf1 | hf2
        · obtain ⟨k, hk⟩ := hwf.flag.mp hf1
          refine ⟨k, ?_⟩
          rw [hs k]
          by_cases hks : k = src
          · rw [if_pos hks]
            refine mem_setAdd.mpr (Or.inr ?_)
            rw [← hks]
            exact hk
          · rw [if_neg hks]
            exact hk
        · have hsd : src = dst := of_decide_eq_true hf2
          refine ⟨src, ?_⟩
          rw [hs src, if_pos rfl]
          exact mem_setAdd.mpr (Or.inl hsd)
      · intro ⟨k, hk⟩
        rw [hs k] at hk
        by_cases hks : k = src
        · rw [if_pos hks] at hk
          rcases mem_setAdd.mp hk with hkd | hk2
          · have : src = dst := by rw [← hks, hkd]
            simp [this]
          · have hkk : k ∈ gsuccs g k := by nth_rewrite 1 [hks]; exact hk2
            have : g.direct_cyclic = true := hwf.flag.mpr ⟨k, hkk⟩
            simp [this]
        · rw [if_neg hks] at hk
          have : g.direct_cyclic = true := hwf.flag.mpr ⟨k, hk⟩
          simp [this]

theorem wf_addEdgeSeq {g : DAGraph} (hwf : WF g) (dst : Key) (ks : List Key) :
    WF (g.addEdgeSeq dst ks).1 := by
  induction ks generalizing g with
  | nil => exact hwf
  | cons k ks ih =>
    cases he : (g.add_edge dst k).2 with
    | none =>
      rw [addEdgeSeq_cons_ok he]
      exact ih (wf_add_edge hwf dst k)
    | some e =>
      rw [addEdgeSeq_cons_err he]
      exact wf_add_edge hwf dst k

theorem wf_addOneArg {g : DAGraph} (hwf : WF g) (dst : Key) (a : EdgeArg) :
    WF (g.addOneArg dst a).1 := by
  cases a with
  | single k =>
    cases k with
    | intK n => exact wf_add_edge hwf dst (.intK n)
    | strK cs => exact wf_addEdgeSeq hwf dst _
  | list ks => exact wf_addEdgeSeq hwf dst ks

theorem wf_add_edges {g : DAGraph} (hwf : WF g) (dst : Key) (args : List EdgeArg) :
    WF (g.add_edges dst args).1 := by
  induction args generalizing g with
  | nil => exact hwf
  | cons a rest ih =>
    cases he : (g.addOneArg dst a).2 with
    | none =>
      rw [add_edges_cons_ok he]
      exact ih (wf_addOneArg hwf dst a)
    | some e =>
      rw [add_edges_cons_err he]
      exact wf_addOneArg hwf dst a

/-- The graphs reachable from the empty graph through the public
mutation API. -/
inductive Reachable : DAGraph → Prop where
  | empty : Reachable DAGraph.empty
  | add_vertex (g : DAGraph) (k : Key) (val : Option Int) :
      Reachable g → Reachable (g.add_vertex k val).1
  | add_edge (g : DAGraph) (dst src : Key) :
      Reachable g → Reachable (g.add_edge dst src).1
  | add_edges (g : DAGraph) (dst : Key) (args : List EdgeArg) :
      Reachable g → Reachable (g.add_edges dst args).1
  | set_item (g : DAGraph) (k : Key) (val : Option Int) :
      Reachable g → Reachable (g.setItemE k val).1

/-- Every API-reachable graph satisfies the invariant. -/
theorem wf_of_reachable {g : DAGraph} (h : Reachable g) : WF g := by
  induction h with
  | empty => exact wf_empty
  | add_vertex g k val _ ih => exact wf_add_vertex ih k val
  | add_edge g dst src _ ih => exact wf_add_edge ih dst src
  | add_edges g dst args _ ih => exact wf_add_edges ih dst args
  | set_item g k val _ ih => exact wf_add_vertex ih k val

/-! ### Claim C7: edge symmetry is an invariant of every operation -/

/-- Claim C7: in every graph reachable from the empty graph by
`add_vertex` / `add_edge` / `add_edges` / `__setitem__`, for any two
stored vertices `src` and `dst`, `dst.key ∈ src.successors` iff
`src.key ∈ dst.predecessors`, and every key appearing in any adjacency
set is the key of a vertex present in the graph. -/
theorem claim_C7 {g : DAGraph} (h : Reachable g) :
    (∀ ps ∈ g.vertices, ∀ pd ∈ g.vertices,
      (pd.2.key ∈ ps.2.successors ↔ ps.2.key ∈ pd.2.predecessors)) ∧
    (∀ p ∈ g.vertices,
      (∀ x ∈ p.2.successors, x ∈ g.vertices.map Prod.fst) ∧
      (∀ x ∈ p.2.predecessors, x ∈ g.vertices.map Prod.fst)) := by
  have hwf := wf_of_reachable h
  constructor
  · intro ps hps pd hpd
    have hs : gsuccs g ps.1 = ps.2.successors :=
      gsuccs_eq (alookup_of_mem_nodup hwf.nodupKeys hps)
    have hp : gpreds g pd.1 = pd.2.predecessors :=
      gpreds_eq (alookup_of_mem_nodup hwf.nodupKeys hpd)
    rw [hwf.kc _ hps, hwf.kc _ hpd, ← hs, ← hp]
    exact hwf.sym ps.1 pd.1
  · intro p hp
    have hs : gsuccs g p.1 = p.2.successors :=
      gsuccs_eq (alookup_of_mem_nodup hwf.nodupKeys hp)
    have hpr : gpreds g p.1 = p.2.predecessors :=
      gpreds_eq (alookup_of_mem_nodup hwf.nodupKeys hp)
    constructor
    · intro x hx
      exact hwf.succClosed p.1 x (by rwa [hs])
    · intro x hx
      exact hwf.predClosed p.1 x (by rwa [hpr])

/-- Claim C7 witness: the concrete two-vertex graph with the edge
`0 → 1` (built as `add_edge` with destination `1` and source `0`) satisfies the
stated symmetry and closedness. -/
theorem claim_C7_witness :
    (∀ ps ∈ gAB.vertices, ∀ pd ∈ gAB.vertices,
      (pd.2.key ∈ ps.2.successors ↔ ps.2.key ∈ pd.2.predecessors)) ∧
    (∀ p ∈ gAB.vertices,
      (∀ x ∈ p.2.successors, x ∈ gAB.vertices.map Prod.fst) ∧
      (∀ x ∈ p.2.predecessors, x ∈ gAB.vertices.map Prod.fst)) :=
  claim_C7 (Reachable.add_edge _ kb ka
    (Reachable.add_vertex _ kb none
      (Reachable.add_vertex _ ka none Reachable.empty)))

/-! ### Claims C2 and C3: the transitive traversal queries -/

/-- One step along the adjacency function used by a traversal loop. -/
def stepRel (adj : Key → List Key) (a b : Key) : Prop := b ∈ adj a

/-- The work-list loop of `get_all_successors k` never returns, for any
fuel: the claim's "returns a list" has no witness at this input. -/
def noResultSucc (g : DAGraph) (k : Key) : Prop :=
  ∀ n, g.get_all_successorsF k n = none

/-- The work-list loop of `get_all_predecessors k` never returns. -/
def noResultPred (g : DAGraph) (k : Key) : Prop :=
  ∀ n, g.get_all_predecessorsF k n = none

theorem gCyc_succ_a : gsuccs gCyc ka = [kb] := by decide
theorem gCyc_succ_b : gsuccs gCyc kb = [ka] := by decide

theorem gCyc_traverse_none :
    ∀ n, (∀ acc, traverseF (gsuccs gCyc) n [ka] acc = none) ∧
      (∀ acc, traverseF (gsuccs gCyc) n [kb] acc = none) := by
  intro n
  induction n with
  | zero => exact ⟨fun acc => rfl, fun acc => rfl⟩
  | succ n ih =>
    constructor
    · intro acc
      have hstep : traverseF (gsuccs gCyc) (n + 1) [ka] acc
          = traverseF (gsuccs gCyc) n ((gsuccs gCyc ka).reverse ++ [])
            (setAdd ka acc) := rfl
      rw [hstep, gCyc_succ_a]
      simpa using ih.2 (setAdd ka acc)
    · intro acc
      have hstep : traverseF (gsuccs gCyc) (n + 1) [kb] acc
          = traverseF (gsuccs gCyc) n ((gsuccs gCyc kb).reverse ++ [])
            (setAdd kb acc) := rfl
      rw [hstep, gCyc_succ_b]
      simpa using ih.1 (setAdd kb acc)

/-- Claim C2 counterexample: on the API-built two-vertex cycle
`0 → 1 → 0`, the key `0` is present, yet `get_all_successors(0)` never
returns (the loop has no visited-set guard and cycles forever), so it
does not return a list with the claimed element set. -/
theorem claim_C2_counterexample :
    gCyc.hasKey ka ∧ Reachable gCyc ∧ noResultSucc gCyc ka := by
  refine ⟨by decide, ?_, ?_⟩
  · exact Reachable.add_edge _ ka kb
      (Reachable.add_edge _ kb ka
        (Reachable.add_vertex _ kb none
          (Reachable.add_vertex _ ka none Reachable.empty)))
  · intro n
    have : gCyc.get_all_successorsF ka n
        = traverseF (gsuccs gCyc) n (gsuccs gCyc ka).reverse [] := rfl
    rw [this, gCyc_succ_a]
    simpa using (gCyc_traverse_none n).2 []

theorem gLoop_pred_c : gpreds gLoop kc = [kc] := by decide

theorem gLoop_traverse_none :
    ∀ n acc, traverseF (gpreds gLoop) n [kc] acc = none := by
  intro n
  induction n with
  | zero => intro acc; rfl
  | succ n ih =>
    intro acc
    have hstep : traverseF (gpreds gLoop) (n + 1) [kc] acc
        = traverseF (gpreds gLoop) n ((gpreds gLoop kc).reverse ++ [])
          (setAdd kc acc) := rfl
    rw [hstep, gLoop_pred_c]
    simpa using ih (setAdd kc acc)

/-- Claim C3 counterexample: on the API-built one-vertex graph with the
self-loop `2 → 2`, `get_all_predecessors(2)` does not terminate — the
work-list loop re-pushes the vertex forever because there is no
visited-set check before extending the stack. -/
theorem claim_C3_counterexample :
    gLoop.hasKey kc ∧ Reachable gLoop ∧ noResultPred gLoop kc := by
  refine ⟨by decide, ?_, ?_⟩
  · exact Reachable.add_edge _ kc kc
      (Reachable.add_vertex _ kc none Reachable.empty)
  · intro n
    have : gLoop.get_all_predecessorsF kc n
        = traverseF (gpreds gLoop) n (gpreds gLoop kc).reverse [] := rfl
    rw [this, gLoop_pred_c]
    simpa using gLoop_traverse_none n []

theorem reach_head_iff {adj : Key → List Key} {e x : Key} :
    Relation.ReflTransGen (stepRel adj) e x
      ↔ x = e ∨ ∃ w ∈ adj e, Relation.ReflTransGen (stepRel adj) w x := by
  constructor
  · intro h
    rcases Relation.ReflTransGen.cases_head h with h1 | ⟨c, hc, hcx⟩
    · exact Or.inl h1.symm
    · exact Or.inr ⟨c, hc, hcx⟩
  · rintro (rfl | ⟨w, hw, hwx⟩)
    · exact Relation.ReflTransGen.refl
    · exact Relation.ReflTransGen.head hw hwx

theorem transGen_iff_head {adj : Key → List Key} {a x : Key} :
    Relation.TransGen (stepRel adj) a x
      ↔ ∃ w ∈ adj a, Relation.ReflTransGen (stepRel adj) w x := by
  rw [Relation.TransGen.head'_iff]
  simp only [stepRel, exists_prop]

theorem transGen_rank {adj : Key → List Key} {m : Key → Nat}
    (hm : ∀ a b, b ∈ adj a → m b < m a) {a b : Key}
    (h : Relation.TransGen (stepRel adj) a b) : m b < m a := by
  induction h with
  | single h1 => exact hm _ _ h1
  | tail _ h2 ih => exact lt_trans (hm _ _ h2) ih

/-- What the result of a terminating traversal loop contains: the
accumulated set plus everything reachable from a stack entry. -/
theorem traverseF_some_mem {adj : Key → List Key} :
    ∀ {n : Nat} {st acc r : List Key}, traverseF adj n st acc = some r →
      ∀ x, x ∈ r ↔ x ∈ acc ∨ ∃ w ∈ st, Relation.ReflTransGen (stepRel adj) w x := by
  intro n
  induction n with
  | zero => intro st acc r h; simp [traverseF] at h
  | succ n ih =>
    intro st acc r h x
    cases st with
    | nil =>
      simp only [traverseF, Option.some.injEq] at h
      subst h
      simp
    | cons e rest =>
      have h1 : traverseF adj n ((adj e).reverse ++ rest) (setAdd e acc) = some r := h
      rw [ih h1 x]
      simp only [mem_setAdd, List.mem_append, List.mem_reverse, List.mem_cons]
      constructor
      · rintro (h2 | ⟨w, (hw | hw), hwx⟩)
        · rcases h2 with hxe | h2
          · refine Or.inr ⟨e, Or.inl rfl, ?_⟩
            rw [hxe]
          · exact Or.inl h2
        · exact Or.inr ⟨e, Or.inl rfl, Relation.ReflTransGen.head hw hwx⟩
        · exact Or.inr ⟨w, Or.inr hw, hwx⟩
      · rintro (h2 | ⟨w, (rfl | hw), hwx⟩)
        · exact Or.inl (Or.inr h2)
        · rcases reach_head_iff.mp hwx with rfl | ⟨w2, hw2, hw2x⟩
          · exact Or.inl (Or.inl rfl)
          · exact Or.inr ⟨w2, Or.inl hw2, hw2x⟩
        · exact Or.inr ⟨w, Or.inr hw, hwx⟩

/-- A ranked adjacency makes the traversal loop terminate: the multiset
measure `Σ (D+1)^(rank v)` over the stack drops at every iteration. -/
theorem traverseF_terminates {adj : Key → List Key} {m : Key → Nat} {D : Nat}
    (hm : ∀ a b, b ∈ adj a → m b < m a) (hD : ∀ a, (adj a).length ≤ D) :
    ∀ st acc : List Key, ∃ n r, traverseF adj n st acc = some r := by
  suffices key : ∀ (N : Nat) (st acc : List Key),
      (st.map (fun v => (D + 1) ^ m v)).sum ≤ N →
      ∃ n r, traverseF adj n st acc = some r by
    intro st acc
    exact key _ st acc le_rfl
  intro N
  induction N with
  | zero =>
    intro st acc hle
    cases st with
    | nil => exact ⟨1, acc, rfl⟩
    | cons e rest =>
      exfalso
      have hpos : 0 < (D + 1) ^ m e := pow_pos (by omega) _
      simp only [List.map_cons, List.sum_cons] at hle
      omega
  | succ N ih =>
    intro st acc hle
    cases st with
    | nil => exact ⟨1, acc, rfl⟩
    | cons e rest =>
      have hlt : ((adj e).map (fun v => (D + 1) ^ m v)).sum < (D + 1) ^ m e := by
        cases hne : adj e with
        | nil => simp
        | cons w ws =>
          rw [← hne]
          have hme : 1 ≤ m e := by
            have := hm e w (by rw [hne]; exact List.mem_cons_self _ _)
            omega
          have hbound : ∀ x ∈ (adj e).map (fun v => (D + 1) ^ m v),
              x ≤ (D + 1) ^ (m e - 1) := by
            intro x hx
            obtain ⟨w1, hw1, rfl⟩ := List.mem_map.mp hx
            have := hm e w1 hw1
            exact Nat.pow_le_pow_right (by omega) (by omega)
          have hsum := List.sum_le_card_nsmul _ _ hbound
          rw [smul_eq_mul, List.length_map] at hsum
          have hstep : (adj e).length * (D + 1) ^ (m e - 1)
              ≤ D * (D + 1) ^ (m e - 1) :=
            Nat.mul_le_mul_right _ (hD e)
          have hfin : D * (D + 1) ^ (m e - 1) < (D + 1) ^ m e := by
            have hpow : (D + 1) ^ m e = (D + 1) * (D + 1) ^ (m e - 1) := by
              conv_lhs => rw [show m e = (m e - 1) + 1 by omega]
              rw [pow_succ']
            rw [hpow]
            have hp : 0 < (D + 1) ^ (m e - 1) := pow_pos (by omega) _
            exact Nat.mul_lt_mul_of_lt_of_le (by omega) le_rfl hp
          omega
      have hmeasure : (((adj e).reverse ++ rest).map (fun v => (D + 1) ^ m v)).sum ≤ N := by
        have hsplit : (((adj e).reverse ++ rest).map (fun v => (D + 1) ^ m v)).sum
            = ((adj e).map (fun v => (D + 1) ^ m v)).sum
              + (rest.map (fun v => (D + 1) ^ m v)).sum := by
          rw [List.map_append, List.sum_append, List.map_reverse, List.sum_reverse]
        have hcons : ((e :: rest).map (fun v => (D + 1) ^ m v)).sum
            = (D + 1) ^ m e + (rest.map (fun v => (D + 1) ^ m v)).sum := by
          rw [List.map_cons, List.sum_cons]
        rw [hcons] at hle
        rw [hsplit]
        omega
      obtain ⟨n, r, hn⟩ := ih ((adj e).reverse ++ rest) (setAdd e acc) hmeasure
      exact ⟨n + 1, r, hn⟩

/-- An upper bound on the successor-set sizes of a graph. -/
def maxSuccLen (g : DAGraph) : Nat :=
  (g.vertices.map (fun p => p.2.successors.length)).foldr max 0

/-- An upper bound on the predecessor-set sizes of a graph. -/
def maxPredLen (g : DAGraph) : Nat :=
  (g.vertices.map (fun p => p.2.predecessors.length)).foldr max 0

theorem le_foldr_max {l : List Nat} {x : Nat} (hx : x ∈ l) :
    x ≤ l.foldr max 0 := by
  induction l with
  | nil => simp at hx
  | cons y rest ih =>
    rcases List.mem_cons.mp hx with rfl | hx2
    · exact le_max_left _ _
    · exact le_trans (ih hx2) (le_max_right _ _)

theorem gsuccs_len_le (g : DAGraph) (a : Key) :
    (gsuccs g a).length ≤ maxSuccLen g := by
  unfold gsuccs maxSuccLen
  cases h : alookup g.vertices a with
  | none => simp
  | some v =>
    simp only [Option.map_some', Option.getD_some]
    exact le_foldr_max
      (List.mem_map_of_mem (fun p => p.2.successors.length) (alookup_mem h))

theorem gpreds_len_le (g : DAGraph) (a : Key) :
    (gpreds g a).length ≤ maxPredLen g := by
  unfold gpreds maxPredLen
  cases h : alookup g.vertices a with
  | none => simp
  | some v =>
    simp only [Option.map_some', Option.getD_some]
    exact le_foldr_max
      (List.mem_map_of_mem (fun p => p.2.predecessors.length) (alookup_mem h))

/-- Claim C2 (amended): on inputs from which the traversal terminates —
here witnessed by rankings that decrease along successor resp.
predecessor edges, which exist exactly when no cycle is reachable, in
particular on every acyclic graph — `get_all_successors(k)` returns a
list whose element set is exactly the set of vertices reachable from
`k` by one or more successor edges, excluding `k` itself, and
symmetrically for `get_all_predecessors(k)`. -/
theorem claim_C2 (g : DAGraph) (k : Key) (ms mp : Key → Nat)
    (_hk : g.hasKey k)
    (hms : ∀ a b, b ∈ gsuccs g a → ms b < ms a)
    (hmp : ∀ a b, b ∈ gpreds g a → mp b < mp a) :
    (∃ n rs, g.get_all_successorsF k n = some rs ∧ k ∉ rs ∧
      ∀ x, x ∈ rs ↔ Relation.TransGen (stepRel (gsuccs g)) k x) ∧
    (∃ n rp, g.get_all_predecessorsF k n = some rp ∧ k ∉ rp ∧
      ∀ x, x ∈ rp ↔ Relation.TransGen (stepRel (gpreds g)) k x) := by
  constructor
  · obtain ⟨n, r, hn⟩ := traverseF_terminates hms (gsuccs_len_le g)
      (gsuccs g k).reverse []
    have hmem : ∀ x, x ∈ r ↔ Relation.TransGen (stepRel (gsuccs g)) k x := by
      intro x
      rw [traverseF_some_mem hn x, transGen_iff_head]
      simp
    refine ⟨n, r, hn, ?_, hmem⟩
    intro hkr
    exact absurd (transGen_rank hms ((hmem k).mp hkr)) (lt_irrefl _)
  · obtain ⟨n, r, hn⟩ := traverseF_terminates hmp (gpreds_len_le g)
      (gpreds g k).reverse []
    have hmem : ∀ x, x ∈ r ↔ Relation.TransGen (stepRel (gpreds g)) k x := by
      intro x
      rw [traverseF_some_mem hn x, transGen_iff_head]
      simp
    refine ⟨n, r, hn, ?_, hmem⟩
    intro hkr
    exact absurd (transGen_rank hmp ((hmem k).mp hkr)) (lt_irrefl _)

/-- Claim C3 (amended): the traversal queries terminate on inputs
admitting a ranking (equivalently, when no cycle is reachable from the
start, in particular on every acyclic graph); there is no visited-set
in the loop, and with a reachable cycle the loop runs forever (see the
counterexample). -/
theorem claim_C3 (g : DAGraph) (k : Key) (ms mp : Key → Nat)
    (_hk : g.hasKey k)
    (hms : ∀ a b, b ∈ gsuccs g a → ms b < ms a)
    (hmp : ∀ a b, b ∈ gpreds g a → mp b < mp a) :
    (∃ n rs, g.get_all_successorsF k n = some rs) ∧
    (∃ n rp, g.get_all_predecessorsF k n = some rp) := by
  constructor
  · obtain ⟨n, r, hn⟩ := traverseF_terminates hms (gsuccs_len_le g)
      (gsuccs g k).reverse []
    exact ⟨n, r, hn⟩
  · obtain ⟨n, r, hn⟩ := traverseF_terminates hmp (gpreds_len_le g)
      (gpreds g k).reverse []
    exact ⟨n, r, hn⟩

/-- The explicit characterisation of `gAB`'s adjacency used to
discharge the ranking hypotheses of the C2/C3 witnesses. -/
theorem gAB_adj :
    (∀ a, gsuccs gAB a = if a = ka then [kb] else []) ∧
    (∀ a, gpreds gAB a = if a = kb then [ka] else []) := by
  have hv : gAB.vertices
      = [(ka, ⟨ka, none, [kb], []⟩), (kb, ⟨kb, none, [], [ka]⟩)] := by decide
  constructor
  · intro a
    by_cases h1 : a = ka
    · subst h1; decide
    · by_cases h2 : a = kb
      · subst h2; decide
      · simp [gsuccs, hv, alookup, h1, h2]
  · intro a
    by_cases h1 : a = ka
    · subst h1; decide
    · by_cases h2 : a = kb
      · subst h2; decide
      · simp [gpreds, hv, alookup, h1, h2]

theorem gAB_rank_succ :
    ∀ a b, b ∈ gsuccs gAB a → (if b = ka then 1 else 0) < (if a = ka then 1 else 0) := by
  intro a b hb
  rw [gAB_adj.1 a] at hb
  by_cases h1 : a = ka
  · rw [if_pos h1] at hb
    simp only [List.mem_singleton] at hb
    subst hb
    rw [if_pos h1, if_neg (by decide)]
    omega
  · rw [if_neg h1] at hb
    simp at hb

theorem gAB_rank_pred :
    ∀ a b, b ∈ gpreds gAB a → (if b = kb then 1 else 0) < (if a = kb then 1 else 0) := by
  intro a b hb
  rw [gAB_adj.2 a] at hb
  by_cases h1 : a = kb
  · rw [if_pos h1] at hb
    simp only [List.mem_singleton] at hb
    subst hb
    rw [if_pos h1, if_neg (by decide)]
    omega
  · rw [if_neg h1] at hb
    simp at hb

/-- Claim C2 witness: the concrete acyclic graph `0 → 1` with explicit
rankings. -/
theorem claim_C2_witness :
    (∃ n rs, gAB.get_all_successorsF ka n = some rs ∧ ka ∉ rs ∧
      ∀ x, x ∈ rs ↔ Relation.TransGen (stepRel (gsuccs gAB)) ka x) ∧
    (∃ n rp, gAB.get_all_predecessorsF ka n = some rp ∧ ka ∉ rp ∧
      ∀ x, x ∈ rp ↔ Relation.TransGen (stepRel (gpreds gAB)) ka x) :=
  claim_C2 gAB ka (fun b => if b = ka then 1 else 0) (fun b => if b = kb then 1 else 0)
    (by decide) gAB_rank_succ gAB_rank_pred

/-- Claim C3 witness: the same concrete acyclic graph terminates. -/
theorem claim_C3_witness :
    (∃ n rs, gAB.get_all_successorsF kb n = some rs) ∧
    (∃ n rp, gAB.get_all_predecessorsF kb n = some rp) :=
  claim_C3 gAB kb (fun b => if b = ka then 1 else 0) (fun b => if b = kb then 1 else 0)
    (by decide) gAB_rank_succ gAB_rank_pred

/-! ### Tarjan verification layer: state notions and invariants -/

/-- The keys recorded in `node_st` (the visited vertices). -/
def ndom (s : TState) : List Key := s.node_st.map Prod.fst

/-- Discovery index of a visited key (`0` junk for unvisited ones). -/
def keyIdx (s : TState) (k : Key) : Nat := ((alookup s.node_st k).getD (0, 0)).1

/-- Current low-link of a visited key (`0` junk for unvisited ones). -/
def keyLL (s : TState) (k : Key) : Nat := ((alookup s.node_st k).getD (0, 0)).2

/-- Number of graph keys not yet visited — the fuel a `strongconnect`
call can consume. -/
def unvisited (g : DAGraph) (s : TState) : Nat :=
  (g.keyList.filter (fun k => (alookup s.node_st k).isNone)).length

/-- Reachability along successor edges, as walked by the algorithm. -/
def GReach (g : DAGraph) (a b : Key) : Prop :=
  Relation.ReflTransGen (stepRel (gsuccs g)) a b

/-- Keys visited between two states (`ndom` only ever grows by
appending). -/
def newKeys (s t : TState) : List Key := (ndom t).drop (ndom s).length

/-- Stack entries pushed between two states (the stack grows at its
head, old entries are never disturbed below). -/
def extOf (s t : TState) : List Key :=
  t.stack.stack.take (t.stack.stack.length - s.stack.stack.length)

/-- Components closed between two states. -/
def newSccs (s t : TState) : List (List Key) :=
  t.scc_list.drop s.scc_list.length

/-- The stack entries strictly above (pushed after) `v`. -/
def aboveOf (st : List Key) (v : Key) : List Key :=
  st.takeWhile (fun u => decide (u ≠ v))

/-- The state invariant maintained at every boundary of the
`strongconnect` recursion. -/
structure SInv (g : DAGraph) (s : TState) : Prop where
  domNodup : (ndom s).Nodup
  domKeys : ∀ k ∈ ndom s, k ∈ g.keyList
  stackSetIff : ∀ k, k ∈ s.stack.stackset ↔ k ∈ s.stack.stack
  stackNodup : s.stack.stack.Nodup
  stackVisited : ∀ k ∈ s.stack.stack, k ∈ ndom s
  partNodup : (s.scc_list.flatten ++ s.stack.stack).Nodup
  partMem : ∀ k, k ∈ s.scc_list.flatten ++ s.stack.stack ↔ k ∈ ndom s
  idxCount : s.idx = (ndom s).length
  entryLt : ∀ k p, alookup s.node_st k = some p → p.2 ≤ p.1 ∧ p.1 < s.idx
  idxInj : ∀ k1 k2 p1 p2, alookup s.node_st k1 = some p1 →
    alookup s.node_st k2 = some p2 → p1.1 = p2.1 → k1 = k2
  stackSorted : s.stack.stack.Pairwise (fun a b => keyIdx s b < keyIdx s a)
  stackReach : s.stack.stack.Pairwise (fun a b => GReach g b a)
  witInv : ∀ u ∈ s.stack.stack, ∃ w ∈ s.stack.stack,
    keyIdx s w = keyLL s u ∧ GReach g u w
  sccNE : ∀ scc ∈ s.scc_list, scc ≠ []
  sccSound : ∀ scc ∈ s.scc_list, ∀ a ∈ scc, ∀ b ∈ scc, GReach g a b
  sccMax : ∀ scc ∈ s.scc_list, ∀ a ∈ scc, ∀ b ∈ g.keyList,
    GReach g a b → GReach g b a → b ∈ scc

/-- What one completed `strongconnect(v)` call guarantees, relating the
entry state `s` to the exit state `t`. -/
structure SCOut (g : DAGraph) (v : Key) (s t : TState) : Prop where
  inv : SInv g t
  frozen : ∀ k ∈ ndom s, alookup t.node_st k = alookup s.node_st k
  domExt : ndom t = ndom s ++ newKeys s t
  vFirstNew : v ∈ newKeys s t
  vEntry : ∃ l, alookup t.node_st v = some (s.idx, l)
  newIdx : ∀ k ∈ newKeys s t, ∀ p, alookup t.node_st k = some p → s.idx ≤ p.1
  stackExt : t.stack.stack = extOf s t ++ s.stack.stack ∧
    ∀ u ∈ extOf s t, u ∈ newKeys s t
  sccExt : t.scc_list = s.scc_list ++ newSccs s t
  reachNew : ∀ x ∈ newKeys s t, GReach g v x
  closeCase : v ∉ t.stack.stack → t.stack.stack = s.stack.stack
  openCase : v ∈ t.stack.stack → (∃ ext1, extOf s t = ext1 ++ [v]) ∧
    keyLL t v < s.idx
  closeLL : v ∉ t.stack.stack → keyLL t v = keyIdx t v
  extLL : ∀ u ∈ extOf s t, keyLL t v ≤ keyLL t u ∧ keyLL t u < keyIdx t u
  edgeInv : ∀ x ∈ newKeys s t, ∀ y ∈ gsuccs g x, y ∈ ndom t ∧
    (y ∈ t.stack.stack → keyLL t x ≤ keyIdx t y)

/-- What a completed run of `strongconnect`'s successor loop over `ws`
guarantees for the owning vertex `v`. -/
structure SLOut (g : DAGraph) (v : Key) (ws : List Key) (s t : TState) : Prop where
  inv : SInv g t
  frozenNotV : ∀ k ∈ ndom s, k ≠ v → alookup t.node_st k = alookup s.node_st k
  domExt : ndom t = ndom s ++ newKeys s t
  vIdx : keyIdx t v = keyIdx s v
  vMem : v ∈ ndom t
  vLL : keyLL t v ≤ keyLL s v
  newIdx : ∀ k ∈ newKeys s t, ∀ p, alookup t.node_st k = some p → s.idx ≤ p.1
  stackExt : t.stack.stack = extOf s t ++ s.stack.stack ∧
    ∀ u ∈ extOf s t, u ∈ newKeys s t
  sccExt : t.scc_list = s.scc_list ++ newSccs s t
  reachNew : ∀ x ∈ newKeys s t, GReach g v x
  extProps : ∀ u ∈ extOf s t, keyLL t v ≤ keyLL t u ∧ keyLL t u < keyIdx t u
  edgeInvNew : ∀ x ∈ newKeys s t, ∀ y ∈ gsuccs g x, y ∈ ndom t ∧
    (y ∈ t.stack.stack → keyLL t x ≤ keyIdx t y)
  edgeInvWs : ∀ w ∈ ws, w ∈ ndom t ∧
    (w ∈ t.stack.stack → keyLL t v ≤ keyIdx t w)
  idxGrow : s.idx ≤ t.idx

theorem length_filter_mono {α : Type} {l : List α} {p q : α → Bool}
    (h : ∀ a ∈ l, p a → q a) : (l.filter p).length ≤ (l.filter q).length := by
  induction l with
  | nil => simp
  | cons a rest ih =>
    have ih2 := ih (fun x hx => h x (List.mem_cons_of_mem _ hx))
    by_cases hp : p a
    · rw [List.filter_cons_of_pos hp, List.filter_cons_of_pos (h a (List.mem_cons_self a rest) hp)]
      simpa using ih2
    · rw [List.filter_cons_of_neg (by simpa using hp)]
      by_cases hq : q a
      · rw [List.filter_cons_of_pos hq]
        simp only [List.length_cons]
        omega
      · rw [List.filter_cons_of_neg (by simpa using hq)]
        exact ih2

theorem mem_ndom_iff {s : TState} {k : Key} :
    k ∈ ndom s ↔ (alookup s.node_st k).isSome := (alookup_isSome_iff _ _).symm

theorem not_mem_ndom_iff {s : TState} {k : Key} :
    k ∉ ndom s ↔ alookup s.node_st k = none := by
  rw [mem_ndom_iff]
  cases alookup s.node_st k <;> simp

theorem unvisited_mono {g : DAGraph} {s t : TState}
    (h : ∀ k, k ∈ ndom s → k ∈ ndom t) : unvisited g t ≤ unvisited g s := by
  apply length_filter_mono
  intro a _ ha
  simp only [Option.isNone_iff_eq_none, decide_eq_true_eq] at *
  rw [← not_mem_ndom_iff] at ha ⊢
  exact fun hc => ha (h a hc)

theorem filter_length_update {l : List Key} {p q : Key → Bool} {v : Key}
    (hnd : l.Nodup) (hv : v ∈ l) (hpv : p v = true) (hqv : q v = false)
    (hother : ∀ k, k ≠ v → q k = p k) :
    (l.filter q).length + 1 = (l.filter p).length := by
  induction l with
  | nil => simp at hv
  | cons a rest ih =>
    have hnd2 := List.nodup_cons.mp hnd
    rcases List.mem_cons.mp hv with rfl | hv2
    · rw [List.filter_cons_of_pos hpv, List.filter_cons_of_neg (by simp [hqv])]
      have hcong : rest.filter q = rest.filter p := by
        apply List.filter_congr
        intro k hk
        exact hother k (fun hc => hnd2.1 (hc ▸ hk))
      rw [hcong]
      simp
    · have hav : a ≠ v := fun hc => hnd2.1 (hc ▸ hv2)
      have haq : q a = p a := hother a hav
      have hih := ih hnd2.2 hv2
      by_cases hpa : p a
      · rw [List.filter_cons_of_pos hpa, List.filter_cons_of_pos (by rw [haq]; exact hpa)]
        simp only [List.length_cons]
        omega
      · have hpa2 : p a = false := by simpa using hpa
        have hqa2 : q a = false := by rw [haq]; exact hpa2
        rw [List.filter_cons_of_neg (by simp [hqa2]),
          List.filter_cons_of_neg (by simp [hpa2])]
        exact hih

/-- Marking one fresh present key decreases `unvisited` by exactly 1. -/
theorem unvisited_mark {g : DAGraph} {s t : TState} {v : Key}
    (hnd : g.keyList.Nodup) (hv : v ∈ g.keyList)
    (hnv : alookup s.node_st v = none)
    (ht : ∀ k, alookup t.node_st k
      = if k = v then some (s.idx, s.idx) else alookup s.node_st k) :
    unvisited g t + 1 = unvisited g s := by
  apply filter_length_update hnd hv
  · simp [hnv]
  · simp [ht v]
  · intro k hk
    simp [ht k, hk]

theorem keyIdx_congr {s t : TState} {k : Key}
    (h : alookup t.node_st k = alookup s.node_st k) : keyIdx t k = keyIdx s k := by
  unfold keyIdx
  rw [h]

theorem keyLL_congr {s t : TState} {k : Key}
    (h : alookup t.node_st k = alookup s.node_st k) : keyLL t k = keyLL s k := by
  unfold keyLL
  rw [h]

theorem stack_entry_some {g : DAGraph} {s : TState} (hinv : SInv g s) {u : Key}
    (hu : u ∈ s.stack.stack) : ∃ p, alookup s.node_st u = some p := by
  have := mem_ndom_iff.mp (hinv.stackVisited u hu)
  cases h : alookup s.node_st u with
  | none => rw [h] at this; simp at this
  | some p => exact ⟨p, rfl⟩

theorem keyIdx_entry {s : TState} {u : Key} {p : Nat × Nat}
    (h : alookup s.node_st u = some p) : keyIdx s u = p.1 := by
  unfold keyIdx
  rw [h]
  rfl

theorem keyLL_entry {s : TState} {u : Key} {p : Nat × Nat}
    (h : alookup s.node_st u = some p) : keyLL s u = p.2 := by
  unfold keyLL
  rw [h]
  rfl

theorem keyLL_le_keyIdx {g : DAGraph} {s : TState} (hinv : SInv g s) {u : Key}
    (hu : u ∈ ndom s) : keyLL s u ≤ keyIdx s u := by
  cases h : alookup s.node_st u with
  | none => exact absurd hu (not_mem_ndom_iff.mpr h)
  | some p =>
    rw [keyLL_entry h, keyIdx_entry h]
    exact (hinv.entryLt u p h).1

/-- Along the stack, every completed (low-link strictly below index)
entry above `v` reaches `v`: follow low-link witnesses downwards. -/
theorem chain_reach {g : DAGraph} {s : TState} (hinv : SInv g s)
    {A : List Key} {v : Key} {base : List Key}
    (hstack : s.stack.stack = A ++ v :: base)
    (hA : ∀ u ∈ A, keyLL s u < keyIdx s u) :
    ∀ u ∈ A, GReach g u v := by
  suffices H : ∀ n, ∀ u ∈ A, keyIdx s u < n → GReach g u v by
    intro u hu
    exact H (keyIdx s u + 1) u hu (by omega)
  intro n
  induction n with
  | zero => intro u _ h; omega
  | succ n ih =>
    intro u hu hun
    have humem : u ∈ s.stack.stack := by
      rw [hstack]; exact List.mem_append_left _ hu
    obtain ⟨w, hw, hwidx, hwreach⟩ := hinv.witInv u humem
    have hwlt : keyIdx s w < keyIdx s u := by
      rw [hwidx]
      exact hA u hu
    rw [hstack] at hw
    rcases List.mem_append.mp hw with hwA | hwV
    · exact Relation.ReflTransGen.trans hwreach (ih w hwA (by omega))
    · rcases List.mem_cons.mp hwV with rfl | hwBase
      · exact hwreach
      · have hpair := hinv.stackReach
        rw [hstack] at hpair
        have h2 := (List.pairwise_append.mp hpair).2.2
        have h3 : GReach g w v := by
          have := List.pairwise_cons.mp (List.pairwise_append.mp hpair).2.1
          exact this.1 w hwBase
        exact Relation.ReflTransGen.trans hwreach h3

/-- Elements of the stack with index below `v`'s sit below `v`. -/
theorem mem_base_of_idx_lt {g : DAGraph} {s : TState} (hinv : SInv g s)
    {E : List Key} {v : Key} {B : List Key} {x : Key}
    (hstack : s.stack.stack = E ++ v :: B)
    (hx : x ∈ s.stack.stack) (hlt : keyIdx s x < keyIdx s v) : x ∈ B := by
  have hpair := hinv.stackSorted
  rw [hstack] at hpair hx
  rcases List.mem_append.mp hx with hxE | hxV
  · exfalso
    have := (List.pairwise_append.mp hpair).2.2 x hxE v (List.mem_cons_self _ _)
    omega
  · rcases List.mem_cons.mp hxV with rfl | hxB
    · omega
    · exact hxB

theorem newKeys_eq {s t : TState} {X : List Key}
    (h : ndom t = ndom s ++ X) : newKeys s t = X := by
  unfold newKeys
  rw [h]
  exact List.drop_left _ _

theorem extOf_eq {s t : TState} {X : List Key}
    (h : t.stack.stack = X ++ s.stack.stack) : extOf s t = X := by
  unfold extOf
  rw [h, List.length_append, Nat.add_sub_cancel, List.take_left]

theorem newSccs_eq {s t : TState} {X : List (List Key)}
    (h : t.scc_list = s.scc_list ++ X) : newSccs s t = X := by
  unfold newSccs
  rw [h]
  exact List.drop_left _ _

theorem newKeys_refl (s : TState) : newKeys s s = [] := by
  unfold newKeys
  simp

theorem extOf_refl (s : TState) : extOf s s = [] := by
  unfold extOf
  simp

theorem newSccs_refl (s : TState) : newSccs s s = [] := by
  unfold newSccs
  simp

/-- Lowering the low-link of an on-stack vertex, with a justifying
witness, preserves the state invariant. -/
theorem llUpdate_sinv {g : DAGraph} {s : TState} {v : Key} {vidx vll newll : Nat}
    (hinv : SInv g s) (hv : alookup s.node_st v = some (vidx, vll))
    (hle : newll ≤ vll)
    (hwit : ∃ w ∈ s.stack.stack, keyIdx s w = newll ∧ GReach g v w) :
    SInv g { s with node_st := aset s.node_st v (vidx, newll) } := by
  set t : TState := { s with node_st := aset s.node_st v (vidx, newll) } with ht
  have hvd : v ∈ ndom s := mem_ndom_iff.mpr (by simp [hv])
  have hdom : ndom t = ndom s := map_fst_aset_present _ hvd
  have hlook : ∀ k, k ≠ v → alookup t.node_st k = alookup s.node_st k := by
    intro k hk
    exact alookup_aset_other _ _ hk
  have hlv : alookup t.node_st v = some (vidx, newll) := alookup_aset_self _ _ _
  have hidx : ∀ k, keyIdx t k = keyIdx s k := by
    intro k
    by_cases hk : k = v
    · subst hk
      rw [keyIdx_entry hlv, keyIdx_entry hv]
    · exact keyIdx_congr (hlook k hk)
  have hllne : ∀ k, k ≠ v → keyLL t k = keyLL s k := by
    intro k hk
    exact keyLL_congr (hlook k hk)
  refine ⟨?_, ?_, hinv.stackSetIff, hinv.stackNodup, ?_, ?_, ?_, ?_, ?_, ?_, ?_, ?_, ?_,
    hinv.sccNE, hinv.sccSound, hinv.sccMax⟩
  · rw [hdom]; exact hinv.domNodup
  · rw [hdom]; exact hinv.domKeys
  · rw [hdom]; exact hinv.stackVisited
  · exact hinv.partNodup
  · intro k
    rw [hdom]
    exact hinv.partMem k
  · rw [hdom]
    exact hinv.idxCount
  · intro k p hp
    by_cases hk : k = v
    · subst hk
      rw [hlv] at hp
      obtain rfl := Option.some.inj hp
      have := hinv.entryLt k (vidx, vll) hv
      simp only at this ⊢
      omega
    · rw [hlook k hk] at hp
      exact hinv.entryLt k p hp
  · intro k1 k2 p1 p2 h1 h2 h12
    by_cases hk1 : k1 = v <;> by_cases hk2 : k2 = v
    · rw [hk1, hk2]
    · subst hk1
      rw [hlv] at h1
      obtain rfl := Option.some.inj h1
      rw [hlook k2 hk2] at h2
      exact hinv.idxInj k1 k2 (vidx, vll) p2 hv h2 h12
    · subst hk2
      rw [hlv] at h2
      obtain rfl := Option.some.inj h2
      rw [hlook k1 hk1] at h1
      exact hinv.idxInj k1 k2 p1 (vidx, vll) h1 hv h12
    · rw [hlook k1 hk1] at h1
      rw [hlook k2 hk2] at h2
      exact hinv.idxInj k1 k2 p1 p2 h1 h2 h12
  · apply hinv.stackSorted.imp_of_mem
    intro a b _ _ hab
    rw [hidx a, hidx b]
    exact hab
  · exact hinv.stackReach
  · intro u hu
    by_cases huv : u = v
    · subst huv
      obtain ⟨w, hw, hwidx, hwr⟩ := hwit
      refine ⟨w, hw, ?_, hwr⟩
      rw [hidx w, hwidx, keyLL_entry hlv]
    · obtain ⟨w, hw, hwidx, hwr⟩ := hinv.witInv u hu
      refine ⟨w, hw, ?_, hwr⟩
      rw [hidx w, hwidx, hllne u huv]

theorem dropWhile_ne_head {st : List Key} {v : Key} (h : v ∈ st) :
    ∃ B, st.dropWhile (fun u => decide (u ≠ v)) = v :: B := by
  induction st with
  | nil => simp at h
  | cons a rest ih =>
    by_cases hav : a = v
    · subst hav
      exact ⟨rest, by rw [List.dropWhile_cons, if_neg (by simp)]⟩
    · have hv2 : v ∈ rest := by
        rcases List.mem_cons.mp h with h1 | h1
        · exact absurd h1.symm hav
        · exact h1
      obtain ⟨B, hB⟩ := ih hv2
      refine ⟨B, ?_⟩
      rw [List.dropWhile_cons, if_pos (by simp [hav])]
      exact hB

/-- Split the stack at the (unique) occurrence of `v`. -/
theorem stack_split {st : List Key} {v : Key} (h : v ∈ st) :
    ∃ B, st = aboveOf st v ++ v :: B := by
  obtain ⟨B, hB⟩ := dropWhile_ne_head h
  refine ⟨B, ?_⟩
  conv_lhs => rw [← List.takeWhile_append_dropWhile (p := fun u => decide (u ≠ v)) (l := st)]
  rw [hB]
  rfl

/-- With the completed-entries hypothesis for everything above `v`,
every stack element reaches `v`. -/
theorem all_stack_reach {g : DAGraph} {s : TState} (hinv : SInv g s) {v : Key}
    (hv : v ∈ s.stack.stack)
    (hA : ∀ u ∈ aboveOf s.stack.stack v, keyLL s u < keyIdx s u) :
    ∀ u ∈ s.stack.stack, GReach g u v := by
  obtain ⟨B, hB⟩ := stack_split hv
  intro u hu
  rw [hB] at hu
  rcases List.mem_append.mp hu with huA | huV
  · exact chain_reach hinv hB hA u huA
  · rcases List.mem_cons.mp huV with rfl | huB
    · exact Relation.ReflTransGen.refl
    · have hpair := hinv.stackReach
      rw [hB] at hpair
      exact (List.pairwise_cons.mp (List.pairwise_append.mp hpair).2.1).1 u huB

/-- A vertex that is already visited and off the stack never returns to
the stack: once closed, always closed. -/
theorem stack_mono_visited {g : DAGraph} {s t : TState}
    (hinvs : SInv g s) (hinvt : SInv g t)
    (hscc : t.scc_list = s.scc_list ++ newSccs s t)
    {y : Key} (hy : y ∈ ndom s) (hyt : y ∈ t.stack.stack) :
    y ∈ s.stack.stack := by
  by_contra hys
  have hyflat : y ∈ s.scc_list.flatten := by
    have := (hinvs.partMem y).mpr hy
    rcases List.mem_append.mp this with h1 | h1
    · exact h1
    · exact absurd h1 hys
  have hyflat_t : y ∈ t.scc_list.flatten := by
    rw [hscc, List.flatten_append]
    exact List.mem_append_left _ hyflat
  have hnd := hinvt.partNodup
  rw [List.nodup_append] at hnd
  exact hnd.2.2 hyflat_t hyt

/-- The trivial successor-loop run over the empty list. -/
theorem slout_nil {g : DAGraph} {v : Key} {s : TState} (hinv : SInv g s)
    (hv : v ∈ ndom s) :
    SLOut g v [] s s := by
  refine ⟨hinv, ?_, ?_, rfl, hv, le_rfl, ?_, ⟨?_, ?_⟩, ?_, ?_, ?_, ?_, ?_, le_rfl⟩
  · intro k hk _; rfl
  · rw [newKeys_refl]; simp
  · intro k hk
    rw [newKeys_refl] at hk
    simp at hk
  · rw [extOf_refl]; simp
  · intro u hu
    rw [extOf_refl] at hu
    simp at hu
  · rw [newSccs_refl]; simp
  · intro x hx
    rw [newKeys_refl] at hx
    simp at hx
  · intro u hu
    rw [extOf_refl] at hu
    simp at hu
  · intro x hx
    rw [newKeys_refl] at hx
    simp at hx
  · intro w hw
    simp at hw

/-- Composing one successor-loop step with the rest of the loop. -/
theorem slout_compose {g : DAGraph} {v w : Key} {ws : List Key} {s s4 t : TState}
    (hv : v ∈ ndom s) (h1 : SLOut g v [w] s s4) (h2 : SLOut g v ws s4 t) :
    SLOut g v (w :: ws) s t := by
  have hd1 := h1.domExt
  have hd2 := h2.domExt
  have hdt : ndom t = ndom s ++ (newKeys s s4 ++ newKeys s4 t) := by
    rw [hd2, hd1, List.append_assoc]
  have hN : newKeys s t = newKeys s s4 ++ newKeys s4 t := newKeys_eq hdt
  have hs1 := h1.stackExt.1
  have hs2 := h2.stackExt.1
  have hst : t.stack.stack = (extOf s4 t ++ extOf s s4) ++ s.stack.stack := by
    rw [hs2, hs1, List.append_assoc]
  have hE : extOf s t = extOf s4 t ++ extOf s s4 := extOf_eq hst
  have hc1 := h1.sccExt
  have hc2 := h2.sccExt
  have hct : t.scc_list = s.scc_list ++ (newSccs s s4 ++ newSccs s4 t) := by
    rw [hc2, hc1, List.append_assoc]
  have hC : newSccs s t = newSccs s s4 ++ newSccs s4 t := newSccs_eq hct
  have hmono1 : ∀ k ∈ ndom s, k ∈ ndom s4 := by
    intro k hk
    rw [hd1]
    exact List.mem_append_left _ hk
  have hN1sub : ∀ k ∈ newKeys s s4, k ∈ ndom s4 := by
    intro k hk
    rw [hd1]
    exact List.mem_append_right _ hk
  have hmono2 : ∀ k ∈ ndom s4, k ∈ ndom t := by
    intro k hk
    rw [hd2]
    exact List.mem_append_left _ hk
  have hN1v : ∀ k ∈ newKeys s s4, k ≠ v := by
    intro k hk hkv
    have hnd := h1.inv.domNodup
    rw [hd1, List.nodup_append] at hnd
    exact hnd.2.2 hv (hkv ▸ hk)
  have hfreeze2 : ∀ k, k ∈ ndom s4 → k ≠ v →
      alookup t.node_st k = alookup s4.node_st k := h2.frozenNotV
  have hidxAll : ∀ k ∈ ndom s4, keyIdx t k = keyIdx s4 k := by
    intro k hk
    by_cases hkv : k = v
    · subst hkv
      exact h2.vIdx
    · exact keyIdx_congr (hfreeze2 k hk hkv)
  have hllNotV : ∀ k, k ∈ ndom s4 → k ≠ v → keyLL t k = keyLL s4 k := by
    intro k hk hkv
    exact keyLL_congr (hfreeze2 k hk hkv)
  refine ⟨h2.inv, ?_, ?_, h2.vIdx.trans h1.vIdx, h2.vMem, le_trans h2.vLL h1.vLL,
    ?_, ⟨by rw [hE]; exact hst, ?_⟩, by rw [hC]; exact hct, ?_, ?_, ?_, ?_,
    le_trans h1.idxGrow h2.idxGrow⟩
  · intro k hk hkv
    rw [h2.frozenNotV k (hmono1 k hk) hkv]
    exact h1.frozenNotV k hk hkv
  · rw [hN]
    exact hdt
  · intro k hk p hp
    rw [hN] at hk
    rcases List.mem_append.mp hk with hk1 | hk2
    · rw [hfreeze2 k (hN1sub k hk1) (hN1v k hk1)] at hp
      exact h1.newIdx k hk1 p hp
    · exact le_trans h1.idxGrow (h2.newIdx k hk2 p hp)
  · intro u hu
    rw [hE] at hu
    rw [hN]
    rcases List.mem_append.mp hu with hu2 | hu1
    · exact List.mem_append_right _ (h2.stackExt.2 u hu2)
    · exact List.mem_append_left _ (h1.stackExt.2 u hu1)
  · intro x hx
    rw [hN] at hx
    rcases List.mem_append.mp hx with hx1 | hx2
    · exact h1.reachNew x hx1
    · exact h2.reachNew x hx2
  · intro u hu
    rw [hE] at hu
    rcases List.mem_append.mp hu with hu2 | hu1
    · exact h2.extProps u hu2
    · have hu1N := h1.stackExt.2 u hu1
      have huv := hN1v u hu1N
      have hud := hN1sub u hu1N
      have h1e := h1.extProps u hu1
      constructor
      · rw [hllNotV u hud huv]
        exact le_trans h2.vLL h1e.1
      · rw [hllNotV u hud huv, hidxAll u hud]
        exact h1e.2
  · intro x hx y hy
    rw [hN] at hx
    rcases List.mem_append.mp hx with hx1 | hx2
    · obtain ⟨hy1, hy2⟩ := h1.edgeInvNew x hx1 y hy
      refine ⟨hmono2 y hy1, ?_⟩
      intro hyt
      have hys4 : y ∈ s4.stack.stack :=
        stack_mono_visited h1.inv h2.inv h2.sccExt hy1 hyt
      have hxv := hN1v x hx1
      have hxd := hN1sub x hx1
      rw [hllNotV x hxd hxv, hidxAll y hy1]
      exact hy2 hys4
    · exact h2.edgeInvNew x hx2 y hy
  · intro w1 hw1
    rcases List.mem_cons.mp hw1 with rfl | hw2
    · obtain ⟨hy1, hy2⟩ := h1.edgeInvWs w1 (List.mem_cons_self _ _)
      refine ⟨hmono2 w1 hy1, ?_⟩
      intro hyt
      have hys4 : w1 ∈ s4.stack.stack :=
        stack_mono_visited h1.inv h2.inv h2.sccExt hy1 hyt
      rw [hidxAll w1 hy1]
      exact le_trans h2.vLL (hy2 hys4)
    · exact h2.edgeInvWs w1 hw2

theorem scStep_unvisited {sc1 : Key → TState → Option TState} {v w : Key}
    {s s3 : TState} {vp wp : Nat × Nat}
    (hwnone : alookup s.node_st w = none) (hs3 : sc1 w s = some s3)
    (hv3 : alookup s3.node_st v = some vp) (hw3 : alookup s3.node_st w = some wp) :
    scStep sc1 v s w
      = some { s3 with node_st := aset s3.node_st v (vp.1, min vp.2 wp.2) } := by
  obtain ⟨vidx, vll⟩ := vp
  obtain ⟨widx, wll⟩ := wp
  unfold scStep
  rw [hwnone, hs3]
  simp only [Option.isNone_none, if_true]
  rw [hv3, hw3]

theorem scStep_onstack {sc1 : Key → TState → Option TState} {v w : Key}
    {s : TState} {vp wp : Nat × Nat}
    (hwsome : alookup s.node_st w = some wp) (hmem : w ∈ s.stack.stackset)
    (hv : alookup s.node_st v = some vp) :
    scStep sc1 v s w
      = some { s with node_st := aset s.node_st v (vp.1, min vp.2 wp.1) } := by
  obtain ⟨vidx, vll⟩ := vp
  obtain ⟨widx, wll⟩ := wp
  unfold scStep
  rw [if_neg (by rw [hwsome]; simp), if_pos hmem]
  rw [hv, hwsome]

theorem scStep_offstack {sc1 : Key → TState → Option TState} {v w : Key}
    {s : TState} {wp : Nat × Nat}
    (hwsome : alookup s.node_st w = some wp) (hnmem : w ∉ s.stack.stackset) :
    scStep sc1 v s w = some s := by
  unfold scStep
  rw [if_neg (by rw [hwsome]; simp), if_neg hnmem]

/-- Specification of one iteration of the successor loop. -/
theorem scStep_spec {g : DAGraph} {sc1 : Key → TState → Option TState} {fuel : Nat}
    (hwf : WF g)
    (hsc : ∀ w s, SInv g s → w ∈ g.keyList → alookup s.node_st w = none →
      (∀ u ∈ s.stack.stack, GReach g u w) → unvisited g s ≤ fuel →
      ∃ t, sc1 w s = some t ∧ SCOut g w s t)
    {v w : Key} {s : TState}
    (hinv : SInv g s) (hvstack : v ∈ s.stack.stack)
    (hw : w ∈ gsuccs g v)
    (hA : ∀ u ∈ aboveOf s.stack.stack v, keyLL s u < keyIdx s u)
    (hfuel : unvisited g s ≤ fuel) :
    ∃ s4, scStep sc1 v s w = some s4 ∧ SLOut g v [w] s s4 := by
  have hvdom : v ∈ ndom s := hinv.stackVisited v hvstack
  obtain ⟨⟨vidx, vll⟩, hve⟩ := stack_entry_some hinv hvstack
  have hvelt := hinv.entryLt v (vidx, vll) hve
  have hreachv := all_stack_reach hinv hvstack hA
  cases hwlook : alookup s.node_st w with
  | none =>
    -- the unvisited branch: recurse into the child
    have hwkeys : w ∈ g.keyList := hwf.succClosed v w hw
    have hreachw : ∀ u ∈ s.stack.stack, GReach g u w := fun u hu =>
      Relation.ReflTransGen.tail (hreachv u hu) hw
    obtain ⟨s3, hs3, hout⟩ := hsc w s hinv hwkeys hwlook hreachw hfuel
    have hv3 : alookup s3.node_st v = some (vidx, vll) :=
      (hout.frozen v hvdom).trans hve
    obtain ⟨l, hw3⟩ := hout.vEntry
    have hwidx3 : keyIdx s3 w = s.idx := keyIdx_entry hw3
    have hwll3 : keyLL s3 w = l := keyLL_entry hw3
    have hlle : l ≤ s.idx := (hout.inv.entryLt w (s.idx, l) hw3).1
    set s4 : TState := { s3 with node_st := aset s3.node_st v (vidx, min vll l) }
      with hs4def
    have heval : scStep sc1 v s w = some s4 :=
      scStep_unvisited hwlook hs3 hv3 hw3
    have hwit : ∃ w2 ∈ s3.stack.stack, keyIdx s3 w2 = min vll l ∧ GReach g v w2 := by
      rcases Nat.le_total vll l with hcmp | hcmp
      · rw [Nat.min_eq_left hcmp]
        have hvstack3 : v ∈ s3.stack.stack := by
          rw [hout.stackExt.1]
          exact List.mem_append_right _ hvstack
        obtain ⟨w2, hw2, hw2i, hw2r⟩ := hout.inv.witInv v hvstack3
        exact ⟨w2, hw2, by rw [hw2i, keyLL_entry hv3], hw2r⟩
      · rw [Nat.min_eq_right hcmp]
        by_cases hws3 : w ∈ s3.stack.stack
        · obtain ⟨w2, hw2, hw2i, hw2r⟩ := hout.inv.witInv w hws3
          refine ⟨w2, hw2, by rw [hw2i, hwll3], ?_⟩
          exact Relation.ReflTransGen.head hw hw2r
        · have := hout.closeLL hws3
          rw [hwll3, hwidx3] at this
          omega
    have hinv4 : SInv g s4 := llUpdate_sinv hout.inv hv3 (Nat.min_le_left _ _) hwit
    have hlv4 : alookup s4.node_st v = some (vidx, min vll l) := alookup_aset_self _ _ _
    have hlo4 : ∀ k, k ≠ v → alookup s4.node_st k = alookup s3.node_st k :=
      fun k hk => alookup_aset_other _ _ hk
    have hvdom3 : v ∈ ndom s3 := mem_ndom_iff.mpr (by simp [hv3])
    have hdom4 : ndom s4 = ndom s3 := map_fst_aset_present _ hvdom3
    have hNeq : newKeys s s4 = newKeys s s3 := by
      unfold newKeys
      rw [hdom4]
    have hidx4 : ∀ k, keyIdx s4 k = keyIdx s3 k := by
      intro k
      by_cases hk : k = v
      · subst hk
        rw [keyIdx_entry hlv4, keyIdx_entry hv3]
      · exact keyIdx_congr (hlo4 k hk)
    have hll4 : ∀ k, k ≠ v → keyLL s4 k = keyLL s3 k :=
      fun k hk => keyLL_congr (hlo4 k hk)
    have hllv4 : keyLL s4 v = min vll l := keyLL_entry hlv4
    have hN1v : ∀ k ∈ newKeys s s3, k ≠ v := by
      intro k hk hkv
      have hnd := hout.inv.domNodup
      rw [hout.domExt, List.nodup_append] at hnd
      exact hnd.2.2 hvdom (hkv ▸ hk)
    have hstack4 : s4.stack.stack = s3.stack.stack := rfl
    refine ⟨s4, heval, ?_⟩
    refine ⟨hinv4, ?_, ?_, ?_, ?_, ?_, ?_, ⟨?_, ?_⟩, ?_, ?_, ?_, ?_, ?_, ?_⟩
    · intro k hk hkv
      rw [hlo4 k hkv]
      exact hout.frozen k hk
    · rw [hNeq, hdom4]
      exact hout.domExt
    · rw [keyIdx_entry hlv4, keyIdx_entry hve]
    · rw [hdom4]
      exact hvdom3
    · rw [hllv4, keyLL_entry hve]
      exact Nat.min_le_left _ _
    · intro k hk p hp
      rw [hNeq] at hk
      rw [hlo4 k (hN1v k hk)] at hp
      exact hout.newIdx k hk p hp
    · rw [extOf_eq (X := extOf s s3) (by rw [hstack4]; exact hout.stackExt.1), hstack4]
      exact hout.stackExt.1
    · intro u hu
      rw [extOf_eq (X := extOf s s3) (by rw [hstack4]; exact hout.stackExt.1)] at hu
      rw [hNeq]
      exact hout.stackExt.2 u hu
    · exact hout.sccExt
    · intro x hx
      rw [hNeq] at hx
      exact Relation.ReflTransGen.head hw (hout.reachNew x hx)
    · intro u hu
      rw [extOf_eq (X := extOf s s3) (by rw [hstack4]; exact hout.stackExt.1)] at hu
      have huv : u ≠ v := hN1v u (hout.stackExt.2 u hu)
      have he := hout.extLL u hu
      constructor
      · rw [hllv4, hll4 u huv]
        calc min vll l ≤ l := Nat.min_le_right _ _
          _ = keyLL s3 w := hwll3.symm
          _ ≤ keyLL s3 u := he.1
      · rw [hll4 u huv, hidx4 u]
        exact he.2
    · intro x hx y hy
      rw [hNeq] at hx
      obtain ⟨hy1, hy2⟩ := hout.edgeInv x hx y hy
      refine ⟨by rw [hdom4]; exact hy1, ?_⟩
      intro hyt
      rw [hstack4] at hyt
      rw [hll4 x (hN1v x hx), hidx4 y]
      exact hy2 hyt
    · intro w1 hw1
      rcases List.mem_cons.mp hw1 with rfl | hw2
      · refine ⟨?_, ?_⟩
        · rw [hdom4]
          exact mem_ndom_iff.mpr (by simp [hw3])
        · intro _
          rw [hllv4, hidx4 w1, hwidx3]
          calc min vll l ≤ l := Nat.min_le_right _ _
            _ ≤ s.idx := hlle
      · simp at hw2
    · have h3 : s.idx ≤ s3.idx := by
        rw [hinv.idxCount, hout.inv.idxCount, hout.domExt, List.length_append]
        omega
      exact h3
  | some wp =>
    obtain ⟨widx, wll⟩ := wp
    have hwdom : w ∈ ndom s := mem_ndom_iff.mpr (by simp [hwlook])
    by_cases hmem : w ∈ s.stack.stackset
    · -- visited and on the stack: fold w's index into v's low-link
      set s4 : TState := { s with node_st := aset s.node_st v (vidx, min vll widx) }
        with hs4def
      have heval : scStep sc1 v s w = some s4 :=
        scStep_onstack hwlook hmem hve
      have hwstack : w ∈ s.stack.stack := (hinv.stackSetIff w).mp hmem
      have hwit : ∃ w2 ∈ s.stack.stack, keyIdx s w2 = min vll widx ∧ GReach g v w2 := by
        rcases Nat.le_total vll widx with hcmp | hcmp
        · rw [Nat.min_eq_left hcmp]
          obtain ⟨w2, hw2, hw2i, hw2r⟩ := hinv.witInv v hvstack
          exact ⟨w2, hw2, by rw [hw2i, keyLL_entry hve], hw2r⟩
        · rw [Nat.min_eq_right hcmp]
          exact ⟨w, hwstack, keyIdx_entry hwlook,
            Relation.ReflTransGen.single hw⟩
      have hinv4 : SInv g s4 := llUpdate_sinv hinv hve (Nat.min_le_left _ _) hwit
      have hlv4 : alookup s4.node_st v = some (vidx, min vll widx) :=
        alookup_aset_self _ _ _
      have hlo4 : ∀ k, k ≠ v → alookup s4.node_st k = alookup s.node_st k :=
        fun k hk => alookup_aset_other _ _ hk
      have hdom4 : ndom s4 = ndom s := map_fst_aset_present _ hvdom
      have hN0 : newKeys s s4 = [] := by
        unfold newKeys
        rw [hdom4]
        simp
      have hE0 : extOf s s4 = [] := by
        unfold extOf
        simp
      have hidx4 : ∀ k, keyIdx s4 k = keyIdx s k := by
        intro k
        by_cases hk : k = v
        · subst hk
          rw [keyIdx_entry hlv4, keyIdx_entry hve]
        · exact keyIdx_congr (hlo4 k hk)
      refine ⟨s4, heval, ?_⟩
      refine ⟨hinv4, ?_, ?_, ?_, ?_, ?_, ?_, ⟨?_, ?_⟩, ?_, ?_, ?_, ?_, ?_, le_rfl⟩
      · intro k hk hkv
        exact hlo4 k hkv
      · rw [hN0, hdom4]
        simp
      · rw [keyIdx_entry hlv4, keyIdx_entry hve]
      · rw [hdom4]
        exact hvdom
      · rw [keyLL_entry hlv4, keyLL_entry hve]
        exact Nat.min_le_left _ _
      · intro k hk
        rw [hN0] at hk
        simp at hk
      · rw [hE0]
        simp
      · intro u hu
        rw [hE0] at hu
        simp at hu
      · rw [newSccs_eq (X := []) (by simp)]
        simp
      · intro x hx
        rw [hN0] at hx
        simp at hx
      · intro u hu
        rw [hE0] at hu
        simp at hu
      · intro x hx
        rw [hN0] at hx
        simp at hx
      · intro w1 hw1
        rcases List.mem_cons.mp hw1 with rfl | hw2
        · refine ⟨by rw [hdom4]; exact hwdom, ?_⟩
          intro _
          rw [keyLL_entry hlv4, hidx4 w1, keyIdx_entry hwlook]
          exact Nat.min_le_right _ _
        · simp at hw2
    · -- visited but already closed: no update
      refine ⟨s, scStep_offstack hwlook hmem, ?_⟩
      have hbase := slout_nil (v := v) hinv hvdom
      refine ⟨hbase.inv, hbase.frozenNotV, hbase.domExt, hbase.vIdx, hbase.vMem,
        hbase.vLL, hbase.newIdx, hbase.stackExt, hbase.sccExt, hbase.reachNew,
        hbase.extProps, hbase.edgeInvNew, ?_, hbase.idxGrow⟩
      intro w1 hw1
      rcases List.mem_cons.mp hw1 with rfl | hw2
      · refine ⟨hwdom, ?_⟩
        intro hws
        exact absurd ((hinv.stackSetIff w1).mpr hws) hmem
      · simp at hw2

theorem takeWhile_append_of_all {p : Key → Bool} {l1 l2 : List Key}
    (h : ∀ x ∈ l1, p x) : (l1 ++ l2).takeWhile p = l1 ++ l2.takeWhile p := by
  induction l1 with
  | nil => simp
  | cons a rest ih =>
    rw [List.cons_append, List.takeWhile_cons,
      if_pos (h a (List.mem_cons_self _ _)), List.cons_append,
      ih (fun x hx => h x (List.mem_cons_of_mem _ hx))]

theorem ne_of_mem_aboveOf {st : List Key} {v u : Key} (h : u ∈ aboveOf st v) :
    u ≠ v := by
  have := List.mem_takeWhile_imp h
  simpa using this

theorem mem_of_mem_aboveOf {st : List Key} {v u : Key} (h : u ∈ aboveOf st v) :
    u ∈ st := (List.takeWhile_sublist _).subset h

/-- Specification of the whole successor loop. -/
theorem scLoop_spec {g : DAGraph} {sc1 : Key → TState → Option TState} {fuel : Nat}
    (hwf : WF g)
    (hsc : ∀ w s, SInv g s → w ∈ g.keyList → alookup s.node_st w = none →
      (∀ u ∈ s.stack.stack, GReach g u w) → unvisited g s ≤ fuel →
      ∃ t, sc1 w s = some t ∧ SCOut g w s t) :
    ∀ (ws : List Key) (v : Key) (s : TState), SInv g s → v ∈ s.stack.stack →
      (∀ w ∈ ws, w ∈ gsuccs g v) →
      (∀ u ∈ aboveOf s.stack.stack v, keyLL s u < keyIdx s u) →
      unvisited g s ≤ fuel →
      ∃ t, scLoop sc1 v ws s = some t ∧ SLOut g v ws s t := by
  intro ws
  induction ws with
  | nil =>
    intro v s hinv hv _ _ _
    exact ⟨s, rfl, slout_nil hinv (hinv.stackVisited v hv)⟩
  | cons w ws ih =>
    intro v s hinv hv hws hA hfuel
    obtain ⟨s4, heval, hstep⟩ := scStep_spec hwf hsc hinv hv
      (hws w (List.mem_cons_self _ _)) hA hfuel
    have hv4 : v ∈ s4.stack.stack := by
      rw [hstep.stackExt.1]
      exact List.mem_append_right _ hv
    have hvdom : v ∈ ndom s := hinv.stackVisited v hv
    have hEv : ∀ u ∈ extOf s s4, u ≠ v := by
      intro u hu huv
      have hnd := hstep.inv.domNodup
      rw [hstep.domExt, List.nodup_append] at hnd
      exact hnd.2.2 hvdom (huv ▸ hstep.stackExt.2 u hu)
    have habove4 : aboveOf s4.stack.stack v
        = extOf s s4 ++ aboveOf s.stack.stack v := by
      unfold aboveOf
      rw [hstep.stackExt.1]
      exact takeWhile_append_of_all (fun x hx => by simp [hEv x hx])
    have hA4 : ∀ u ∈ aboveOf s4.stack.stack v, keyLL s4 u < keyIdx s4 u := by
      intro u hu
      rw [habove4] at hu
      rcases List.mem_append.mp hu with hu1 | hu2
      · exact (hstep.extProps u hu1).2
      · have huv := ne_of_mem_aboveOf hu2
        have hus : u ∈ s.stack.stack := mem_of_mem_aboveOf hu2
        have hlook := hstep.frozenNotV u (hinv.stackVisited u hus) huv
        rw [keyLL_congr hlook, keyIdx_congr hlook]
        exact hA u hu2
    have hfuel4 : unvisited g s4 ≤ fuel := by
      refine le_trans (unvisited_mono ?_) hfuel
      intro k hk
      rw [hstep.domExt]
      exact List.mem_append_left _ hk
    obtain ⟨t, hloop, hrest⟩ := ih v s4 hstep.inv hv4
      (fun w1 hw1 => hws w1 (List.mem_cons_of_mem _ hw1)) hA4 hfuel4
    refine ⟨t, ?_, slout_compose hvdom hstep hrest⟩
    show scLoop sc1 v (w :: ws) s = some t
    simp only [scLoop]
    rw [heval]
    exact hloop

/-- The state after `node_st[v] = (idx, idx); idx += 1; stack.push(v)`. -/
def markPush (s : TState) (v : Key) : TState :=
  { node_st := aset s.node_st v (s.idx, s.idx), idx := s.idx + 1,
    stack := ⟨v :: s.stack.stack, setAdd v s.stack.stackset⟩,
    scc_list := s.scc_list }

/-- Recording the discovery of `v` and pushing it keeps the invariant. -/
theorem mark_push_sinv {g : DAGraph} {s : TState} {v : Key}
    (hinv : SInv g s) (hv : v ∈ g.keyList) (hnv : alookup s.node_st v = none)
    (hreach : ∀ u ∈ s.stack.stack, GReach g u v) :
    SInv g (markPush s v) := by
  set s2 : TState := markPush s v with hs2
  have hvnot : v ∉ ndom s := not_mem_ndom_iff.mpr hnv
  have hdom2 : ndom s2 = ndom s ++ [v] := map_fst_aset_absent _ hvnot
  have hlv : alookup s2.node_st v = some (s.idx, s.idx) := alookup_aset_self _ _ _
  have hlo : ∀ k, k ≠ v → alookup s2.node_st k = alookup s.node_st k :=
    fun k hk => alookup_aset_other _ _ hk
  have hvstack : v ∉ s.stack.stack := fun hc => hvnot (hinv.stackVisited v hc)
  have hidxOld : ∀ k ∈ ndom s, keyIdx s2 k = keyIdx s k := by
    intro k hk
    exact keyIdx_congr (hlo k (fun hc => hvnot (hc ▸ hk)))
  have hllOld : ∀ k ∈ ndom s, keyLL s2 k = keyLL s k := by
    intro k hk
    exact keyLL_congr (hlo k (fun hc => hvnot (hc ▸ hk)))
  have hidxLt : ∀ k ∈ s.stack.stack, keyIdx s2 k < s.idx := by
    intro k hk
    obtain ⟨p, hp⟩ := stack_entry_some hinv hk
    rw [hidxOld k (hinv.stackVisited k hk), keyIdx_entry hp]
    exact (hinv.entryLt k p hp).2
  refine ⟨?_, ?_, ?_, ?_, ?_, ?_, ?_, ?_, ?_, ?_, ?_, ?_, ?_, hinv.sccNE,
    hinv.sccSound, hinv.sccMax⟩
  · rw [hdom2, List.nodup_append]
    refine ⟨hinv.domNodup, List.nodup_singleton _, ?_⟩
    intro a ha hb
    simp only [List.mem_singleton] at hb
    exact hvnot (hb ▸ ha)
  · intro k hk
    rw [hdom2] at hk
    rcases List.mem_append.mp hk with hk1 | hk1
    · exact hinv.domKeys k hk1
    · simp at hk1
      exact hk1 ▸ hv
  · intro k
    show k ∈ setAdd v s.stack.stackset ↔ k ∈ v :: s.stack.stack
    rw [mem_setAdd, List.mem_cons]
    exact or_congr Iff.rfl (hinv.stackSetIff k)
  · exact List.nodup_cons.mpr ⟨hvstack, hinv.stackNodup⟩
  · intro k hk
    rw [hdom2]
    rcases List.mem_cons.mp hk with rfl | hk1
    · exact List.mem_append_right _ (List.mem_cons_self _ _)
    · exact List.mem_append_left _ (hinv.stackVisited k hk1)
  · show (s.scc_list.flatten ++ v :: s.stack.stack).Nodup
    rw [List.nodup_middle]
    refine List.nodup_cons.mpr ⟨?_, hinv.partNodup⟩
    intro hc
    exact hvnot ((hinv.partMem v).mp hc)
  · intro k
    show k ∈ s.scc_list.flatten ++ v :: s.stack.stack ↔ k ∈ ndom s2
    rw [hdom2]
    constructor
    · intro hk
      rcases List.mem_append.mp hk with hk1 | hk1
      · exact List.mem_append_left _ ((hinv.partMem k).mp (List.mem_append_left _ hk1))
      · rcases List.mem_cons.mp hk1 with rfl | hk2
        · exact List.mem_append_right _ (List.mem_cons_self _ _)
        · exact List.mem_append_left _
            ((hinv.partMem k).mp (List.mem_append_right _ hk2))
    · intro hk
      rcases List.mem_append.mp hk with hk1 | hk1
      · rcases List.mem_append.mp ((hinv.partMem k).mpr hk1) with hk2 | hk2
        · exact List.mem_append_left _ hk2
        · exact List.mem_append_right _ (List.mem_cons_of_mem _ hk2)
      · simp at hk1
        subst hk1
        exact List.mem_append_right _ (List.mem_cons_self _ _)
  · show s.idx + 1 = (ndom s2).length
    rw [hdom2, List.length_append, hinv.idxCount]
    simp
  · intro k p hp
    by_cases hk : k = v
    · subst hk
      rw [hlv] at hp
      obtain rfl := Option.some.inj hp
      refine ⟨le_rfl, ?_⟩
      show s.idx < s.idx + 1
      omega
    · rw [hlo k hk] at hp
      have h3 := hinv.entryLt k p hp
      have h4 : s2.idx = s.idx + 1 := rfl
      omega
  · intro k1 k2 p1 p2 h1 h2 h12
    by_cases hk1 : k1 = v <;> by_cases hk2 : k2 = v
    · rw [hk1, hk2]
    · subst hk1
      rw [hlv] at h1
      obtain rfl := Option.some.inj h1
      rw [hlo k2 hk2] at h2
      have h3 := hinv.entryLt k2 p2 h2
      have h12b : s.idx = p2.1 := h12
      exfalso
      omega
    · subst hk2
      rw [hlv] at h2
      obtain rfl := Option.some.inj h2
      rw [hlo k1 hk1] at h1
      have h3 := hinv.entryLt k1 p1 h1
      have h12b : p1.1 = s.idx := h12
      exfalso
      omega
    · rw [hlo k1 hk1] at h1
      rw [hlo k2 hk2] at h2
      exact hinv.idxInj k1 k2 p1 p2 h1 h2 h12
  · show (v :: s.stack.stack).Pairwise (fun a b => keyIdx s2 b < keyIdx s2 a)
    refine List.pairwise_cons.mpr ⟨?_, ?_⟩
    · intro u hu
      rw [keyIdx_entry hlv]
      exact hidxLt u hu
    · refine hinv.stackSorted.imp_of_mem ?_
      intro a b ha hb hab
      rw [hidxOld a (hinv.stackVisited a ha), hidxOld b (hinv.stackVisited b hb)]
      exact hab
  · show (v :: s.stack.stack).Pairwise (fun a b => GReach g b a)
    exact List.pairwise_cons.mpr ⟨hreach, hinv.stackReach⟩
  · intro u hu
    rcases List.mem_cons.mp hu with rfl | hu1
    · refine ⟨u, List.mem_cons_self _ _, ?_, Relation.ReflTransGen.refl⟩
      rw [keyIdx_entry hlv, keyLL_entry hlv]
    · obtain ⟨w, hw, hwidx, hwr⟩ := hinv.witInv u hu1
      refine ⟨w, List.mem_cons_of_mem _ hw, ?_, hwr⟩
      rw [hidxOld w (hinv.stackVisited w hw), hwidx,
        hllOld u (hinv.stackVisited u hu1)]

/-- Evaluation and content of the component-closing pop loop. -/
theorem sccPopF_spec : ∀ (pre : List Key) (v : Key) (post ss acc : List Key),
    v ∉ pre →
    ∃ ss2, sccPopF v (pre ++ v :: post) ss acc
        = some (acc ++ (pre ++ [v]), post, ss2) ∧
      (∀ k, k ∈ ss2 ↔ k ∈ ss ∧ k ∉ pre ∧ k ≠ v) ∧ (ss.Nodup → ss2.Nodup) := by
  intro pre
  induction pre with
  | nil =>
    intro v post ss acc _
    refine ⟨setRemove v ss, ?_, ?_, fun h => setRemove_nodup h⟩
    · show sccPopF v (v :: post) ss acc = _
      unfold sccPopF
      rw [if_pos rfl]
      simp
    · intro k
      rw [mem_setRemove]
      simp
  | cons a pre ih =>
    intro v post ss acc hnv
    have hav : a ≠ v := fun hc => hnv (by rw [hc]; exact List.mem_cons_self _ _)
    have hnv2 : v ∉ pre := fun hc => hnv (List.mem_cons_of_mem _ hc)
    obtain ⟨ss2, heval, hmem, hnd⟩ := ih v post (setRemove a ss) (acc ++ [a]) hnv2
    refine ⟨ss2, ?_, ?_, ?_⟩
    · show sccPopF v (a :: (pre ++ v :: post)) ss acc = _
      unfold sccPopF
      rw [if_neg hav, heval]
      congr 2
      simp
    · intro k
      rw [hmem k, mem_setRemove]
      constructor
      · rintro ⟨⟨h1, h2⟩, h3, h4⟩
        exact ⟨h1, by simp [h2, h3], h4⟩
      · rintro ⟨h1, h2, h3⟩
        simp only [List.mem_cons, not_or] at h2
        exact ⟨⟨h1, h2.1⟩, h2.2, h3⟩
    · intro h
      exact hnd (setRemove_nodup h)

theorem scF_succ_eval {g : DAGraph} {fuel : Nat} {v : Key} {s : TState}
    (hvss : v ∉ s.stack.stackset) :
    scF g (fuel + 1) v s
      = match scLoop (scF g fuel) v (gsuccs g v) (markPush s v) with
        | none => none
        | some s3 =>
          match alookup s3.node_st v with
          | none => none
          | some (vidx, vll) =>
            if vidx = vll then
              match sccPopF v s3.stack.stack s3.stack.stackset [] with
              | none => none
              | some (scc, st1, ss1) =>
                some { s3 with stack := ⟨st1, ss1⟩, scc_list := s3.scc_list ++ [scc] }
            else some s3 := by
  unfold scF
  dsimp only
  have hpush : s.stack.push v
      = (⟨v :: s.stack.stack, setAdd v s.stack.stackset⟩, none) := by
    unfold UniqueStack.push
    rw [if_neg hvss]
  rw [hpush]
  rfl


/-- Evaluation of `scF` in the closing branch (`v_idx == v_ll`). -/
theorem scF_eval_close {g : DAGraph} {fuel : Nat} {v : Key} {s s3 : TState}
    {vidx vll : Nat} {scc st1 ss1 : List Key}
    (hvss : v ∉ s.stack.stackset)
    (hloop : scLoop (scF g fuel) v (gsuccs g v) (markPush s v) = some s3)
    (hv3 : alookup s3.node_st v = some (vidx, vll))
    (hcl : vidx = vll)
    (hpop : sccPopF v s3.stack.stack s3.stack.stackset [] = some (scc, st1, ss1)) :
    scF g (fuel + 1) v s
      = some { s3 with stack := ⟨st1, ss1⟩, scc_list := s3.scc_list ++ [scc] } := by
  rw [scF_succ_eval hvss, hloop]
  dsimp only
  rw [hv3]
  dsimp only
  rw [if_pos hcl, hpop]

/-- Evaluation of `scF` in the non-closing branch (`v_idx != v_ll`). -/
theorem scF_eval_open {g : DAGraph} {fuel : Nat} {v : Key} {s s3 : TState}
    {vidx vll : Nat}
    (hvss : v ∉ s.stack.stackset)
    (hloop : scLoop (scF g fuel) v (gsuccs g v) (markPush s v) = some s3)
    (hv3 : alookup s3.node_st v = some (vidx, vll))
    (hcl : ¬ vidx = vll) :
    scF g (fuel + 1) v s = some s3 := by
  rw [scF_succ_eval hvss, hloop]
  dsimp only
  rw [hv3]
  dsimp only
  rw [if_neg hcl]

/-- After the successor loop, if `v`'s low-link is strictly below its
index, `strongconnect(v)` returns the loop's state unchanged and the
call contract holds. -/
theorem scF_open_out {g : DAGraph} {s s3 : TState} {v : Key}
    {vidx3 vll3 : Nat}
    (hnv : alookup s.node_st v = none)
    (hout : SLOut g v (gsuccs g v) (markPush s v) s3)
    (hv3 : alookup s3.node_st v = some (vidx3, vll3))
    (hclose : ¬ vidx3 = vll3) :
    SCOut g v s s3 := by
  have hvnot : v ∉ ndom s := not_mem_ndom_iff.mpr hnv
  have hdom2 : ndom (markPush s v) = ndom s ++ [v] := map_fst_aset_absent _ hvnot
  have hlv2 : alookup (markPush s v).node_st v = some (s.idx, s.idx) :=
    alookup_aset_self _ _ _
  have hvidx3 : vidx3 = s.idx := by
    have h1 : keyIdx s3 v = keyIdx (markPush s v) v := hout.vIdx
    rw [keyIdx_entry hv3, keyIdx_entry hlv2] at h1
    exact h1
  have hvle : vll3 ≤ vidx3 := (hout.inv.entryLt v (vidx3, vll3) hv3).1
  have hstack3 : s3.stack.stack = extOf (markPush s v) s3 ++ v :: s.stack.stack :=
    hout.stackExt.1
  have hEnew := hout.stackExt.2
  have hfreezeS : ∀ k ∈ ndom s, alookup s3.node_st k = alookup s.node_st k := by
    intro k hk
    have hkv : k ≠ v := fun hc => hvnot (hc ▸ hk)
    have h1 := hout.frozenNotV k (by rw [hdom2]; exact List.mem_append_left _ hk) hkv
    rw [h1]
    exact alookup_aset_other _ _ hkv
  have hdomt : ndom s3 = ndom s ++ (v :: newKeys (markPush s v) s3) := by
    rw [hout.domExt, hdom2]
    simp
  have hNt : newKeys s s3 = v :: newKeys (markPush s v) s3 := newKeys_eq hdomt
  have hstack3' : s3.stack.stack
      = (extOf (markPush s v) s3 ++ [v]) ++ s.stack.stack := by
    rw [hstack3]
    simp
  have hEs : extOf s s3 = extOf (markPush s v) s3 ++ [v] := extOf_eq hstack3'
  refine ⟨hout.inv, hfreezeS, ?_, ?_, ⟨vll3, hvidx3 ▸ hv3⟩, ?_, ⟨?_, ?_⟩, ?_, ?_,
    ?_, ?_, ?_, ?_, ?_⟩
  · rw [hNt]
    exact hdomt
  · rw [hNt]
    exact List.mem_cons_self _ _
  · intro k hk p hp
    rw [hNt] at hk
    rcases List.mem_cons.mp hk with rfl | hk2
    · rw [hv3] at hp
      obtain rfl : (vidx3, vll3) = p := Option.some.inj hp
      show s.idx ≤ vidx3
      omega
    · have h2 : s.idx + 1 ≤ p.1 := hout.newIdx k hk2 p hp
      omega
  · rw [hEs]
    exact hstack3'
  · intro u hu
    rw [hEs] at hu
    rw [hNt]
    rcases List.mem_append.mp hu with h | h
    · exact List.mem_cons_of_mem _ (hEnew u h)
    · rw [List.mem_singleton] at h
      subst h
      exact List.mem_cons_self _ _
  · exact hout.sccExt
  · intro x hx
    rw [hNt] at hx
    rcases List.mem_cons.mp hx with rfl | hx2
    · exact Relation.ReflTransGen.refl
    · exact hout.reachNew x hx2
  · intro hc
    exact absurd (by
      rw [hstack3]
      exact List.mem_append_right _ (List.mem_cons_self _ _)) hc
  · intro _
    refine ⟨⟨extOf (markPush s v) s3, hEs⟩, ?_⟩
    rw [keyLL_entry hv3]
    show vll3 < s.idx
    omega
  · intro hc
    exact absurd (by
      rw [hstack3]
      exact List.mem_append_right _ (List.mem_cons_self _ _)) hc
  · intro u hu
    rw [hEs] at hu
    rcases List.mem_append.mp hu with h | h
    · exact hout.extProps u h
    · rw [List.mem_singleton] at h
      subst h
      refine ⟨le_rfl, ?_⟩
      rw [keyLL_entry hv3, keyIdx_entry hv3]
      show vll3 < vidx3
      omega
  · intro x hx y hy
    rw [hNt] at hx
    rcases List.mem_cons.mp hx with rfl | hx2
    · exact hout.edgeInvWs y hy
    · exact hout.edgeInvNew x hx2 y hy

/-- After the successor loop, if `v`'s low-link equals its index,
`strongconnect(v)` pops everything above and including `v` into one new
component and the call contract holds for the resulting state. -/
theorem scF_close_out {g : DAGraph} {s s3 : TState} {v : Key}
    {vidx3 vll3 : Nat} {ss2 : List Key}
    (hinv : SInv g s) (hv : v ∈ g.keyList) (hnv : alookup s.node_st v = none)
    (hout : SLOut g v (gsuccs g v) (markPush s v) s3)
    (hv3 : alookup s3.node_st v = some (vidx3, vll3))
    (hclose : vidx3 = vll3)
    (hssmem : ∀ k, k ∈ ss2 ↔ k ∈ s3.stack.stackset ∧
      k ∉ extOf (markPush s v) s3 ∧ k ≠ v) :
    SCOut g v s { s3 with stack := ⟨s.stack.stack, ss2⟩, scc_list := s3.scc_list ++ [extOf (markPush s v) s3 ++ [v]] } := by
  obtain ⟨E, hE⟩ : ∃ E, extOf (markPush s v) s3 = E := ⟨_, rfl⟩
  rw [hE]
  rw [hE] at hssmem
  have hvnot : v ∉ ndom s := not_mem_ndom_iff.mpr hnv
  have hdom2 : ndom (markPush s v) = ndom s ++ [v] := map_fst_aset_absent _ hvnot
  have hlv2 : alookup (markPush s v).node_st v = some (s.idx, s.idx) :=
    alookup_aset_self _ _ _
  have hvidx3 : vidx3 = s.idx := by
    have h1 : keyIdx s3 v = keyIdx (markPush s v) v := hout.vIdx
    rw [keyIdx_entry hv3, keyIdx_entry hlv2] at h1
    exact h1
  have hstack3 : s3.stack.stack = E ++ v :: s.stack.stack := by
    rw [← hE]
    exact hout.stackExt.1
  have hEnew : ∀ u ∈ E, u ∈ newKeys (markPush s v) s3 := by
    rw [← hE]
    exact hout.stackExt.2
  have hextP : ∀ u ∈ E, keyLL s3 v ≤ keyLL s3 u ∧ keyLL s3 u < keyIdx s3 u := by
    rw [← hE]
    exact hout.extProps
  have hfreezeS : ∀ k ∈ ndom s, alookup s3.node_st k = alookup s.node_st k := by
    intro k hk
    have hkv : k ≠ v := fun hc => hvnot (hc ▸ hk)
    have h1 := hout.frozenNotV k (by rw [hdom2]; exact List.mem_append_left _ hk) hkv
    rw [h1]
    exact alookup_aset_other _ _ hkv
  have hdomt : ndom s3 = ndom s ++ (v :: newKeys (markPush s v) s3) := by
    rw [hout.domExt, hdom2]
    simp
  have hNt : newKeys s s3 = v :: newKeys (markPush s v) s3 := newKeys_eq hdomt
  have hvllv : keyLL s3 v = s.idx := by
    rw [keyLL_entry hv3]
    show vll3 = s.idx
    omega
  have hvkeyidx3 : keyIdx s3 v = s.idx := by
    rw [keyIdx_entry hv3]
    exact hvidx3
  have hEidx : ∀ u ∈ E, s.idx + 1 ≤ keyIdx s3 u := by
    intro u hu
    have hu3 : u ∈ s3.stack.stack := by
      rw [hstack3]
      exact List.mem_append_left _ hu
    obtain ⟨p, hp⟩ := stack_entry_some hout.inv hu3
    rw [keyIdx_entry hp]
    exact hout.newIdx u (hEnew u hu) p hp
  have hbase_idx : ∀ u ∈ s.stack.stack, keyIdx s3 u < s.idx := by
    intro u hu
    obtain ⟨p, hp⟩ := stack_entry_some hinv hu
    rw [keyIdx_congr (hfreezeS u (hinv.stackVisited u hu)), keyIdx_entry hp]
    exact (hinv.entryLt u p hp).2
  have hnd3 : (E ++ v :: s.stack.stack).Nodup := by
    rw [← hstack3]
    exact hout.inv.stackNodup
  have hchain := chain_reach hout.inv hstack3 (fun u hu => (hextP u hu).2)
  have hreachEV : ∀ a ∈ E ++ [v], GReach g a v := by
    intro a ha
    rcases List.mem_append.mp ha with h | h
    · exact hchain a h
    · rw [List.mem_singleton] at h
      subst h
      exact Relation.ReflTransGen.refl
  have hreachVE : ∀ a ∈ E ++ [v], GReach g v a := by
    intro a ha
    rcases List.mem_append.mp ha with h | h
    · exact hout.reachNew a (hEnew a h)
    · rw [List.mem_singleton] at h
      subst h
      exact Relation.ReflTransGen.refl
  have hM : ∀ y ∈ E ++ [v], ∀ x ∈ gsuccs g y, GReach g v x → GReach g x v →
      x ∈ E ++ [v] := by
    intro y hy x hx hvx hxv
    have hef : x ∈ ndom s3 ∧ (x ∈ s3.stack.stack → s.idx ≤ keyIdx s3 x) := by
      rcases List.mem_append.mp hy with hy1 | hy1
      · obtain ⟨h1, h2⟩ := hout.edgeInvNew y (hEnew y hy1) x hx
        refine ⟨h1, fun hxs => ?_⟩
        have h3 := h2 hxs
        have h4 := (hextP y hy1).1
        rw [hvllv] at h4
        omega
      · rw [List.mem_singleton] at hy1
        subst hy1
        obtain ⟨h1, h2⟩ := hout.edgeInvWs x hx
        refine ⟨h1, fun hxs => ?_⟩
        have h3 := h2 hxs
        rw [hvllv] at h3
        exact h3
    by_cases hxs : x ∈ s3.stack.stack
    · have hxs2 := hxs
      rw [hstack3] at hxs2
      rcases List.mem_append.mp hxs2 with hx1 | hx1
      · exact List.mem_append_left _ hx1
      · rcases List.mem_cons.mp hx1 with rfl | hx2
        · exact List.mem_append_right _ (List.mem_singleton.mpr rfl)
        · exfalso
          have h5 := hbase_idx x hx2
          have h6 := hef.2 hxs
          omega
    · exfalso
      have hxflat : x ∈ s3.scc_list.flatten := by
        have h7 := (hout.inv.partMem x).mpr hef.1
        rcases List.mem_append.mp h7 with h1 | h1
        · exact h1
        · exact absurd h1 hxs
      obtain ⟨scc1, hscc1, hxscc1⟩ := List.mem_flatten.mp hxflat
      have hvscc1 : v ∈ scc1 := hout.inv.sccMax scc1 hscc1 x hxscc1 v hv hxv hvx
      have hvflat : v ∈ s3.scc_list.flatten :=
        List.mem_flatten.mpr ⟨scc1, hscc1, hvscc1⟩
      have hnd := hout.inv.partNodup
      rw [List.nodup_append] at hnd
      refine hnd.2.2 hvflat ?_
      rw [hstack3]
      exact List.mem_append_right _ (List.mem_cons_self _ _)
  have hMax : ∀ b, GReach g v b → GReach g b v → b ∈ E ++ [v] := by
    intro b hvb
    induction hvb with
    | refl =>
      intro _
      exact List.mem_append_right _ (List.mem_singleton.mpr rfl)
    | @tail y x hvy hyx ihb =>
      intro hxv
      have hyv : GReach g y v := Relation.ReflTransGen.head hyx hxv
      exact hM y (ihb hyv) x hyx (Relation.ReflTransGen.tail hvy hyx) hxv
  have hstackset : ∀ k, k ∈ ss2 ↔ k ∈ s.stack.stack := by
    intro k
    rw [hssmem k, hout.inv.stackSetIff k, hstack3]
    constructor
    · rintro ⟨hk1, hk2, hk3⟩
      rcases List.mem_append.mp hk1 with h | h
      · exact absurd h hk2
      · rcases List.mem_cons.mp h with rfl | h2
        · exact absurd rfl hk3
        · exact h2
    · intro hk
      refine ⟨List.mem_append_right _ (List.mem_cons_of_mem _ hk), ?_, ?_⟩
      · intro hkE
        exact (List.nodup_append.mp hnd3).2.2 hkE (List.mem_cons_of_mem _ hk)
      · intro hkv
        subst hkv
        exact (List.nodup_cons.mp (List.nodup_append.mp hnd3).2.1).1 hk
  have hlist : (s3.scc_list ++ [E ++ [v]]).flatten ++ s.stack.stack
      = s3.scc_list.flatten ++ s3.stack.stack := by
    rw [hstack3]
    simp
  have hbasesub : List.Sublist s.stack.stack s3.stack.stack := by
    rw [hstack3]
    exact (List.sublist_cons_self v _).trans (List.sublist_append_right E _)
  have hscct : s3.scc_list ++ [E ++ [v]]
      = s.scc_list ++ (newSccs (markPush s v) s3 ++ [E ++ [v]]) := by
    have h1 : s3.scc_list = s.scc_list ++ newSccs (markPush s v) s3 := hout.sccExt
    rw [h1, List.append_assoc]
  refine ⟨⟨hout.inv.domNodup, hout.inv.domKeys, hstackset, hinv.stackNodup, ?_,
      ?_, ?_, hout.inv.idxCount, hout.inv.entryLt, hout.inv.idxInj, ?_, ?_, ?_,
      ?_, ?_, ?_⟩,
    hfreezeS, ?_, ?_, ?_, ?_, ⟨?_, ?_⟩, ?_, ?_, ?_, ?_, ?_, ?_, ?_⟩
  · -- stackVisited
    intro k hk
    show k ∈ ndom s3
    rw [hdomt]
    exact List.mem_append_left _ (hinv.stackVisited k hk)
  · -- partNodup
    show ((s3.scc_list ++ [E ++ [v]]).flatten ++ s.stack.stack).Nodup
    rw [hlist]
    exact hout.inv.partNodup
  · -- partMem
    intro k
    show k ∈ (s3.scc_list ++ [E ++ [v]]).flatten ++ s.stack.stack ↔ k ∈ ndom s3
    rw [hlist]
    exact hout.inv.partMem k
  · -- stackSorted
    show s.stack.stack.Pairwise (fun a b => keyIdx s3 b < keyIdx s3 a)
    exact hout.inv.stackSorted.sublist hbasesub
  · -- stackReach
    show s.stack.stack.Pairwise (fun a b => GReach g b a)
    exact hout.inv.stackReach.sublist hbasesub
  · -- witInv
    intro u hu
    have hu3 : u ∈ s3.stack.stack := by
      rw [hstack3]
      exact List.mem_append_right _ (List.mem_cons_of_mem _ hu)
    obtain ⟨w, hw, hwidx, hwreach⟩ := hout.inv.witInv u hu3
    have hult : keyIdx s3 u < s.idx := hbase_idx u hu
    have hllu : keyLL s3 u ≤ keyIdx s3 u :=
      keyLL_le_keyIdx hout.inv (hout.inv.stackVisited u hu3)
    have hwlt : keyIdx s3 w < s.idx := by omega
    refine ⟨w, ?_, hwidx, hwreach⟩
    rw [hstack3] at hw
    rcases List.mem_append.mp hw with hwE | hwV
    · exact absurd (hEidx w hwE) (by omega)
    · rcases List.mem_cons.mp hwV with rfl | hwB
      · exfalso
        rw [hvkeyidx3] at hwlt
        omega
      · exact hwB
  · -- sccNE
    intro scc hscc
    rcases List.mem_append.mp hscc with h | h
    · exact hout.inv.sccNE scc h
    · rw [List.mem_singleton] at h
      subst h
      simp
  · -- sccSound
    intro scc hscc a ha b hb
    rcases List.mem_append.mp hscc with h | h
    · exact hout.inv.sccSound scc h a ha b hb
    · rw [List.mem_singleton] at h
      subst h
      exact Relation.ReflTransGen.trans (hreachEV a ha) (hreachVE b hb)
  · -- sccMax
    intro scc hscc a ha b hb hab hba
    rcases List.mem_append.mp hscc with h | h
    · exact hout.inv.sccMax scc h a ha b hb hab hba
    · rw [List.mem_singleton] at h
      subst h
      exact hMax b (Relation.ReflTransGen.trans (hreachVE a ha) hab)
        (Relation.ReflTransGen.trans hba (hreachEV a ha))
  · -- domExt
    show ndom s3 = ndom s ++ newKeys s s3
    rw [hNt]
    exact hdomt
  · -- vFirstNew
    show v ∈ newKeys s s3
    rw [hNt]
    exact List.mem_cons_self _ _
  · -- vEntry
    exact ⟨vll3, hvidx3 ▸ hv3⟩
  · -- newIdx
    intro k hk p hp
    have hk2 : k ∈ newKeys s s3 := hk
    rw [hNt] at hk2
    have hp2 : alookup s3.node_st k = some p := hp
    rcases List.mem_cons.mp hk2 with rfl | hk3
    · rw [hv3] at hp2
      obtain rfl : (vidx3, vll3) = p := Option.some.inj hp2
      show s.idx ≤ vidx3
      omega
    · have h2 : s.idx + 1 ≤ p.1 := hout.newIdx k hk3 p hp2
      omega
  · -- stackExt, shape
    show s.stack.stack
      = List.take (s.stack.stack.length - s.stack.stack.length) s.stack.stack
        ++ s.stack.stack
    simp
  · -- stackExt, new keys
    intro u hu
    have hu2 : u ∈ List.take (s.stack.stack.length - s.stack.stack.length)
        s.stack.stack := hu
    simp at hu2
  · -- sccExt
    show s3.scc_list ++ [E ++ [v]]
      = s.scc_list ++ List.drop s.scc_list.length (s3.scc_list ++ [E ++ [v]])
    rw [hscct, List.drop_left]
  · -- reachNew
    intro x hx
    have hx2 : x ∈ newKeys s s3 := hx
    rw [hNt] at hx2
    rcases List.mem_cons.mp hx2 with rfl | h
    · exact Relation.ReflTransGen.refl
    · exact hout.reachNew x h
  · -- closeCase
    intro _
    rfl
  · -- openCase
    intro hc
    exact absurd (hinv.stackVisited v hc) hvnot
  · -- closeLL
    intro _
    show keyLL s3 v = keyIdx s3 v
    rw [keyLL_entry hv3, keyIdx_entry hv3]
    show vll3 = vidx3
    omega
  · -- extLL
    intro u hu
    have hu2 : u ∈ List.take (s.stack.stack.length - s.stack.stack.length)
        s.stack.stack := hu
    simp at hu2
  · -- edgeInv
    intro x hx y hy
    have hx2 : x ∈ newKeys s s3 := hx
    rw [hNt] at hx2
    have hsub : ∀ z, z ∈ s.stack.stack → z ∈ s3.stack.stack := by
      intro z hz
      rw [hstack3]
      exact List.mem_append_right _ (List.mem_cons_of_mem _ hz)
    rcases List.mem_cons.mp hx2 with rfl | hx3
    · obtain ⟨h1, h2⟩ := hout.edgeInvWs y hy
      exact ⟨h1, fun hys => h2 (hsub y hys)⟩
    · obtain ⟨h1, h2⟩ := hout.edgeInvNew x hx3 y hy
      exact ⟨h1, fun hys => h2 (hsub y hys)⟩

/-- The main specification of `strongconnect`: started on an unvisited
key with enough fuel, it succeeds and satisfies the call contract
`SCOut`. -/
theorem scF_spec {g : DAGraph} (hwf : WF g) :
    ∀ (fuel : Nat) (v : Key) (s : TState), SInv g s → v ∈ g.keyList →
      alookup s.node_st v = none →
      (∀ u ∈ s.stack.stack, GReach g u v) → unvisited g s ≤ fuel →
      ∃ t, scF g fuel v s = some t ∧ SCOut g v s t := by
  intro fuel
  induction fuel with
  | zero =>
    intro v s hinv hv hnv hreach hfuel
    exfalso
    have hmem : v ∈ g.keyList.filter (fun k => (alookup s.node_st k).isNone) :=
      List.mem_filter.mpr ⟨hv, by simp [hnv]⟩
    have hpos := List.length_pos.mpr (List.ne_nil_of_mem hmem)
    have hfu : unvisited g s
        = (g.keyList.filter (fun k => (alookup s.node_st k).isNone)).length := rfl
    omega
  | succ fuel ih =>
    intro v s hinv hv hnv hreach hfuel
    have hvnot : v ∉ ndom s := not_mem_ndom_iff.mpr hnv
    have hvss : v ∉ s.stack.stackset := fun hc =>
      hvnot (hinv.stackVisited v ((hinv.stackSetIff v).mp hc))
    have hinv2 : SInv g (markPush s v) := mark_push_sinv hinv hv hnv hreach
    have hmark : unvisited g (markPush s v) + 1 = unvisited g s := by
      refine unvisited_mark hwf.nodupKeys hv hnv ?_
      intro k
      by_cases hk : k = v
      · subst hk
        rw [if_pos rfl]
        exact alookup_aset_self _ _ _
      · rw [if_neg hk]
        exact alookup_aset_other _ _ hk
    have hfuel2 : unvisited g (markPush s v) ≤ fuel := by omega
    have hv2stack : v ∈ (markPush s v).stack.stack := List.mem_cons_self _ _
    have habove0 : aboveOf (markPush s v).stack.stack v = [] := by
      show (v :: s.stack.stack).takeWhile _ = []
      rw [List.takeWhile_cons, if_neg (by simp)]
    have habove : ∀ u ∈ aboveOf (markPush s v).stack.stack v,
        keyLL (markPush s v) u < keyIdx (markPush s v) u := by
      rw [habove0]
      intro u hu
      simp at hu
    obtain ⟨s3, hloop, hout⟩ := scLoop_spec hwf ih (gsuccs g v) v (markPush s v)
      hinv2 hv2stack (fun w hw => hw) habove hfuel2
    obtain ⟨p3, hv3⟩ := Option.isSome_iff_exists.mp (mem_ndom_iff.mp hout.vMem)
    obtain ⟨vidx3, vll3⟩ := p3
    by_cases hclose : vidx3 = vll3
    · have hstack3 : s3.stack.stack
          = extOf (markPush s v) s3 ++ v :: s.stack.stack := hout.stackExt.1
      have hvnotE : v ∉ extOf (markPush s v) s3 := by
        intro hc
        have hvdom2 : v ∈ ndom (markPush s v) := by
          rw [mem_ndom_iff]
          have hlv2 : alookup (markPush s v).node_st v = some (s.idx, s.idx) :=
            alookup_aset_self _ _ _
          rw [hlv2]
          rfl
        have hnd := hout.inv.domNodup
        rw [hout.domExt, List.nodup_append] at hnd
        exact hnd.2.2 hvdom2 (hout.stackExt.2 v hc)
      obtain ⟨ss2, hpop, hssmem, _⟩ := sccPopF_spec (extOf (markPush s v) s3) v
        s.stack.stack s3.stack.stackset [] hvnotE
      simp only [List.nil_append] at hpop
      have hpop2 : sccPopF v s3.stack.stack s3.stack.stackset []
          = some (extOf (markPush s v) s3 ++ [v], s.stack.stack, ss2) := by
        rw [hstack3]
        exact hpop
      exact ⟨_, scF_eval_close hvss hloop hv3 hclose hpop2,
        scF_close_out hinv hv hnv hout hv3 hclose hssmem⟩
    · exact ⟨s3, scF_eval_open hvss hloop hv3 hclose,
        scF_open_out hnv hout hv3 hclose⟩

/-- The initial Tarjan state satisfies the invariant for any graph. -/
theorem sinv_init (g : DAGraph) : SInv g TState.init := by
  refine ⟨?_, ?_, ?_, ?_, ?_, ?_, ?_, ?_, ?_, ?_, ?_, ?_, ?_, ?_, ?_, ?_⟩ <;>
    simp [TState.init, ndom, alookup]

/-- One step of the root loop, once the branch value is known. -/
theorem tarjansRootsF_cons_eval {g : DAGraph} {e : Key} {es : List Key}
    {s s1 : TState}
    (h : (if (alookup s.node_st e).isNone then scF g g.vertices.length e s
        else some s) = some s1) :
    tarjansRootsF g (e :: es) s = tarjansRootsF g es s1 := by
  conv_lhs => unfold tarjansRootsF
  rw [h]

/-- The root loop of `tarjans` succeeds on keys of the graph, keeps the
invariant, leaves the stack empty, and visits every listed root. -/
theorem tarjansRootsF_spec {g : DAGraph} (hwf : WF g) :
    ∀ (es : List Key) (s : TState), SInv g s → s.stack.stack = [] →
      (∀ e ∈ es, e ∈ g.keyList) →
      ∃ t, tarjansRootsF g es s = some t ∧ SInv g t ∧ t.stack.stack = [] ∧
        (∀ k ∈ ndom s, k ∈ ndom t) ∧ (∀ e ∈ es, e ∈ ndom t) := by
  intro es
  induction es with
  | nil =>
    intro s hinv hnil _
    exact ⟨s, rfl, hinv, hnil, fun k hk => hk, by simp⟩
  | cons e es ih =>
    intro s hinv hnil hes
    by_cases hvis : (alookup s.node_st e).isNone
    · have hnv : alookup s.node_st e = none := by
        cases h : alookup s.node_st e with
        | none => rfl
        | some p => rw [h] at hvis; simp at hvis
      have hfuel : unvisited g s ≤ g.vertices.length := by
        have h1 := List.length_filter_le
          (fun k => (alookup s.node_st k).isNone) g.keyList
        have h2 : g.keyList.length = g.vertices.length :=
          List.length_map _ _
        have h3 : unvisited g s
            = (g.keyList.filter (fun k => (alookup s.node_st k).isNone)).length :=
          rfl
        omega
      have hreach : ∀ u ∈ s.stack.stack, GReach g u e := by
        rw [hnil]
        intro u hu
        simp at hu
      obtain ⟨t1, heval, hsc⟩ := scF_spec hwf g.vertices.length e s hinv
        (hes e (List.mem_cons_self _ _)) hnv hreach hfuel
      have hstack : t1.stack.stack = extOf s t1 := by
        have h1 := hsc.stackExt.1
        rw [hnil, List.append_nil] at h1
        exact h1
      have ht1nil : t1.stack.stack = [] := by
        by_cases hin : e ∈ t1.stack.stack
        · exfalso
          obtain ⟨_, hll⟩ := hsc.openCase hin
          obtain ⟨w, hw, hwidx, _⟩ := hsc.inv.witInv e hin
          have hwnew : w ∈ newKeys s t1 := by
            refine hsc.stackExt.2 w ?_
            rw [← hstack]
            exact hw
          obtain ⟨p, hp⟩ := stack_entry_some hsc.inv hw
          have hge : s.idx ≤ p.1 := hsc.newIdx w hwnew p hp
          rw [keyIdx_entry hp] at hwidx
          omega
        · rw [hsc.closeCase hin]
          exact hnil
      have hedom : e ∈ ndom t1 := by
        obtain ⟨l, hl⟩ := hsc.vEntry
        rw [mem_ndom_iff, hl]
        rfl
      have hmono : ∀ k ∈ ndom s, k ∈ ndom t1 := by
        intro k hk
        rw [hsc.domExt]
        exact List.mem_append_left _ hk
      obtain ⟨t, hrest, hinvt, htnil, hmono2, hcov⟩ := ih t1 hsc.inv ht1nil
        (fun e2 he2 => hes e2 (List.mem_cons_of_mem _ he2))
      refine ⟨t, ?_, hinvt, htnil, fun k hk => hmono2 k (hmono k hk), ?_⟩
      · rw [tarjansRootsF_cons_eval (by rw [if_pos hvis]; exact heval)]
        exact hrest
      · intro e2 he2
        rcases List.mem_cons.mp he2 with rfl | h2
        · exact hmono2 e2 hedom
        · exact hcov e2 h2
    · have hedom : e ∈ ndom s := by
        rw [mem_ndom_iff]
        cases h : alookup s.node_st e with
        | none => rw [h] at hvis; simp at hvis
        | some p => rfl
      obtain ⟨t, hrest, hinvt, htnil, hmono2, hcov⟩ := ih s hinv hnil
        (fun e2 he2 => hes e2 (List.mem_cons_of_mem _ he2))
      refine ⟨t, ?_, hinvt, htnil, hmono2, ?_⟩
      · rw [tarjansRootsF_cons_eval (by rw [if_neg hvis])]
        exact hrest
      · intro e2 he2
        rcases List.mem_cons.mp he2 with rfl | h2
        · exact hmono2 e2 hedom
        · exact hcov e2 h2

/-- What `tarjans` computes: a list of components whose flattening
enumerates the vertex keys without repetition, each component being
exactly a mutual-reachability class. -/
def SCCList (g : DAGraph) (sccs : List (List Key)) : Prop :=
  sccs.flatten.Nodup ∧ (∀ k, k ∈ sccs.flatten ↔ k ∈ g.keyList) ∧
  (∀ scc ∈ sccs, scc ≠ []) ∧
  (∀ scc ∈ sccs, ∀ a ∈ scc, ∀ b,
    (b ∈ scc ↔ b ∈ g.keyList ∧ GReach g a b ∧ GReach g b a))

/-- On a well-formed graph, running the root loop over any permutation
of the keys succeeds and `tarjans` returns the final component list. -/
theorem tarjans_final {g : DAGraph} (hwf : WF g) {order : List Key}
    (hperm : order.Perm g.keyList) :
    ∃ t, tarjansRootsF g order TState.init = some t ∧
      g.tarjans order = t.scc_list ∧ SInv g t ∧ t.stack.stack = [] ∧
      (∀ k, k ∈ ndom t ↔ k ∈ g.keyList) := by
  obtain ⟨t, heval, hinvt, htnil, _, hcov⟩ := tarjansRootsF_spec hwf order
    TState.init (sinv_init g) rfl (fun e he => hperm.subset he)
  refine ⟨t, heval, ?_, hinvt, htnil, ?_⟩
  · unfold DAGraph.tarjans
    rw [heval]
    rfl
  · intro k
    constructor
    · exact hinvt.domKeys k
    · intro hk
      exact hcov k (hperm.symm.subset hk)

/-- `tarjans` on any permutation of the keys produces an `SCCList`. -/
theorem tarjans_sccList {g : DAGraph} (hwf : WF g) {order : List Key}
    (hperm : order.Perm g.keyList) : SCCList g (g.tarjans order) := by
  obtain ⟨t, _, htj, hinvt, htnil, hdom⟩ := tarjans_final hwf hperm
  rw [htj]
  have hpart := hinvt.partNodup
  rw [htnil, List.append_nil] at hpart
  have hmem : ∀ k, k ∈ t.scc_list.flatten ↔ k ∈ g.keyList := by
    intro k
    have h1 := hinvt.partMem k
    rw [htnil, List.append_nil] at h1
    rw [h1]
    exact hdom k
  refine ⟨hpart, hmem, hinvt.sccNE, ?_⟩
  intro scc hscc a ha b
  constructor
  · intro hb
    refine ⟨(hmem b).mp (List.mem_flatten.mpr ⟨scc, hscc, hb⟩),
      hinvt.sccSound scc hscc a ha b hb, hinvt.sccSound scc hscc b hb a ha⟩
  · rintro ⟨hbK, hab, hba⟩
    exact hinvt.sccMax scc hscc a ha b hbK hab hba

/-- For a list of nonempty lists, the count is at most the total size,
with equality exactly when every member is a singleton. -/
theorem length_le_sum_of_ne_nil : ∀ (l : List (List Key)), (∀ x ∈ l, x ≠ []) →
    l.length ≤ (l.map List.length).sum ∧
    (l.length = (l.map List.length).sum ↔ ∀ x ∈ l, x.length = 1) := by
  intro l
  induction l with
  | nil => intro _; simp
  | cons a l ih =>
    intro h
    obtain ⟨ih1, ih2⟩ := ih (fun x hx => h x (List.mem_cons_of_mem _ hx))
    have ha : 1 ≤ a.length :=
      List.length_pos.mpr (h a (List.mem_cons_self _ _))
    constructor
    · simp only [List.map_cons, List.sum_cons, List.length_cons]
      omega
    · simp only [List.map_cons, List.sum_cons, List.length_cons]
      constructor
      · intro he x hx
        rcases List.mem_cons.mp hx with rfl | hx2
        · omega
        · exact (ih2.mp (by omega)) x hx2
      · intro hall
        have h1 : a.length = 1 := hall a (List.mem_cons_self _ _)
        have h2 : l.length = (l.map List.length).sum :=
          ih2.mpr (fun x hx => hall x (List.mem_cons_of_mem _ hx))
        omega

/-- Component count versus vertex count for any `SCCList`. -/
theorem sccList_counts {g : DAGraph} (hnd : g.keyList.Nodup)
    {sccs : List (List Key)} (h : SCCList g sccs) :
    sccs.length ≤ g.keyList.length ∧
    (sccs.length = g.keyList.length ↔ ∀ scc ∈ sccs, scc.length = 1) := by
  obtain ⟨hfnd, hmem, hne, _⟩ := h
  have hperm : sccs.flatten.Perm g.keyList :=
    (List.perm_ext_iff_of_nodup hfnd hnd).mpr hmem
  have hlen : sccs.flatten.length = g.keyList.length := hperm.length_eq
  have hsum := List.length_flatten sccs
  obtain ⟨h1, h2⟩ := length_le_sum_of_ne_nil sccs hne
  constructor
  · omega
  · rw [← hlen, hsum]
    exact h2

/-- In a graph without successor edges, reachability is equality. -/
theorem greach_eq_of_no_edges {g : DAGraph} (hzero : ∀ k, gsuccs g k = [])
    {a b : Key} (h : GReach g a b) : a = b := by
  induction h with
  | refl => rfl
  | @tail y x hay hyx ih =>
    exfalso
    have hyx2 : x ∈ gsuccs g y := hyx
    rw [hzero y] at hyx2
    exact absurd hyx2 (List.not_mem_nil x)

theorem nodup_all_eq_singleton {l : List Key} {a : Key} (hnd : l.Nodup)
    (ha : a ∈ l) (hall : ∀ b ∈ l, b = a) : l = [a] := by
  cases l with
  | nil => exact absurd ha (List.not_mem_nil a)
  | cons x xs =>
    have hx : x = a := hall x (List.mem_cons_self _ _)
    subst hx
    cases xs with
    | nil => rfl
    | cons y ys =>
      exfalso
      have hy : y = x := hall y (by simp)
      exact (List.nodup_cons.mp hnd).1 (by rw [hy]; exact List.mem_cons_self _ _)

/-- Without edges every component is a singleton. -/
theorem sccList_singletons_of_no_edges {g : DAGraph}
    (hzero : ∀ k, gsuccs g k = []) {sccs : List (List Key)}
    (h : SCCList g sccs) : ∀ scc ∈ sccs, scc.length = 1 := by
  obtain ⟨hfnd, hmem, hne, hchar⟩ := h
  intro scc hscc
  obtain ⟨a, ha⟩ := List.exists_mem_of_ne_nil scc (hne scc hscc)
  have hndscc : scc.Nodup := (List.nodup_flatten.mp hfnd).1 scc hscc
  have hall : ∀ b ∈ scc, b = a := by
    intro b hb
    have h1 := (hchar scc hscc a ha b).mp hb
    exact (greach_eq_of_no_edges hzero h1.2.1).symm
  rw [nodup_all_eq_singleton hndscc ha hall]
  rfl

/-- Two keys land in a common component of the list. -/
def sameSCC (sccs : List (List Key)) (a b : Key) : Prop :=
  ∃ scc ∈ sccs, a ∈ scc ∧ b ∈ scc

/-- Common component membership is exactly mutual reachability between
stored keys, independently of which `SCCList` was computed. -/
theorem sccList_sameSCC {g : DAGraph} {sccs : List (List Key)}
    (h : SCCList g sccs) : ∀ a b, sameSCC sccs a b ↔
      (a ∈ g.keyList ∧ b ∈ g.keyList ∧ GReach g a b ∧ GReach g b a) := by
  obtain ⟨hfnd, hmem, hne, hchar⟩ := h
  intro a b
  constructor
  · rintro ⟨scc, hscc, ha, hb⟩
    have haK : a ∈ g.keyList := (hmem a).mp (List.mem_flatten.mpr ⟨scc, hscc, ha⟩)
    have h1 := (hchar scc hscc a ha b).mp hb
    exact ⟨haK, h1.1, h1.2.1, h1.2.2⟩
  · rintro ⟨haK, hbK, hab, hba⟩
    obtain ⟨scc, hscc, ha⟩ := List.mem_flatten.mp ((hmem a).mpr haK)
    exact ⟨scc, hscc, ha, (hchar scc hscc a ha b).mpr ⟨hbK, hab, hba⟩⟩

/-- The components of an `SCCList`, viewed as finite sets, are nodup. -/
theorem sccList_map_toFinset_nodup {g : DAGraph} {sccs : List (List Key)}
    (h : SCCList g sccs) : (sccs.map List.toFinset).Nodup := by
  obtain ⟨hfnd, hmem, hne, hchar⟩ := h
  have hdisj := (List.nodup_flatten.mp hfnd).2
  show (sccs.map List.toFinset).Pairwise (· ≠ ·)
  rw [List.pairwise_map]
  refine hdisj.imp_of_mem ?_
  intro s1 s2 hs1 hs2 hd he
  obtain ⟨x, hx⟩ := List.exists_mem_of_ne_nil s1 (hne s1 hs1)
  have hx2 : x ∈ s2 := by
    have h1 : x ∈ s2.toFinset := by
      rw [← he]
      exact List.mem_toFinset.mpr hx
    exact List.mem_toFinset.mp h1
  exact hd hx hx2

/-- Any two `SCCList`s for the same graph consist of the same
components (as finite sets, up to order). -/
theorem sccList_map_perm {g : DAGraph} {s1 s2 : List (List Key)}
    (h1 : SCCList g s1) (h2 : SCCList g s2) :
    (s1.map List.toFinset).Perm (s2.map List.toFinset) := by
  have hsame : ∀ {u1 u2 : List (List Key)}, SCCList g u1 → SCCList g u2 →
      ∀ X ∈ u1.map List.toFinset, X ∈ u2.map List.toFinset := by
    intro u1 u2 hu1 hu2 X hX
    obtain ⟨hfnd1, hmem1, hne1, hchar1⟩ := hu1
    obtain ⟨hfnd2, hmem2, hne2, hchar2⟩ := hu2
    obtain ⟨scc1, hscc1, rfl⟩ := List.mem_map.mp hX
    obtain ⟨a, ha⟩ := List.exists_mem_of_ne_nil scc1 (hne1 scc1 hscc1)
    have haK : a ∈ g.keyList :=
      (hmem1 a).mp (List.mem_flatten.mpr ⟨scc1, hscc1, ha⟩)
    obtain ⟨scc2, hscc2, ha2⟩ := List.mem_flatten.mp ((hmem2 a).mpr haK)
    refine List.mem_map.mpr ⟨scc2, hscc2, ?_⟩
    ext b
    rw [List.mem_toFinset, List.mem_toFinset, hchar2 scc2 hscc2 a ha2 b,
      ← hchar1 scc1 hscc1 a ha b]
  exact (List.perm_ext_iff_of_nodup (sccList_map_toFinset_nodup h1)
    (sccList_map_toFinset_nodup h2)).mpr
    (fun X => ⟨hsame h1 h2 X, hsame h2 h1 X⟩)

/-- Claim C1: for every API-built graph and any root iteration order,
`is_cyclic` returns true iff the graph has a self-loop edge or Tarjan's
algorithm produces strictly fewer components than vertices; it returns
true whenever the self-loop flag is set, false on every graph with zero
edges, and the count deficit is equivalent to some component having
more than one member. -/
theorem claim_C1 {g : DAGraph} (h : Reachable g) (order : List Key)
    (hperm : order.Perm g.keyList) :
    (g.is_cyclic order = true ↔
      ((∃ k, k ∈ gsuccs g k) ∨ (g.tarjans order).length < g.vertices.length)) ∧
    (g.direct_cyclic = true → g.is_cyclic order = true) ∧
    ((∀ k, gsuccs g k = []) → g.is_cyclic order = false) ∧
    ((g.tarjans order).length < g.vertices.length ↔
      ∃ scc ∈ g.tarjans order, 2 ≤ scc.length) := by
  have hwf := wf_of_reachable h
  have hscc := tarjans_sccList hwf hperm
  have hnkey : g.keyList.length = g.vertices.length := List.length_map _ _
  obtain ⟨hle, heq⟩ := sccList_counts hwf.nodupKeys hscc
  have hcyc : g.is_cyclic order
      = (g.direct_cyclic
        || decide ((g.tarjans order).length ≠ g.vertices.length)) := rfl
  have h4 : (g.tarjans order).length < g.vertices.length ↔
      ∃ scc ∈ g.tarjans order, 2 ≤ scc.length := by
    constructor
    · intro hlt
      by_contra hc
      push_neg at hc
      have hall : ∀ scc ∈ g.tarjans order, scc.length = 1 := by
        intro scc hs
        have h1 := hc scc hs
        have h2 : scc ≠ [] := hscc.2.2.1 scc hs
        have h3 := List.length_pos.mpr h2
        omega
      have h5 := heq.mpr hall
      omega
    · rintro ⟨scc, hs, h2⟩
      rcases Nat.lt_or_ge (g.tarjans order).length g.vertices.length with h6 | h6
      · exact h6
      · exfalso
        have hcount : (g.tarjans order).length = g.keyList.length := by omega
        have h7 := (heq.mp hcount) scc hs
        omega
  refine ⟨?_, ?_, ?_, h4⟩
  · rw [hcyc, Bool.or_eq_true, decide_eq_true_iff, hwf.flag]
    constructor
    · rintro (h1 | h1)
      · exact Or.inl h1
      · right
        omega
    · rintro (h1 | h1)
      · exact Or.inl h1
      · right
        omega
  · intro h1
    rw [hcyc, h1]
    rfl
  · intro hzero
    have hflag : g.direct_cyclic = false := by
      rcases hb : g.direct_cyclic with _ | _
      · rfl
      · exfalso
        obtain ⟨k, hk⟩ := hwf.flag.mp hb
        rw [hzero k] at hk
        exact absurd hk (List.not_mem_nil k)
    have hall := sccList_singletons_of_no_edges hzero hscc
    have hcount : (g.tarjans order).length = g.keyList.length := heq.mpr hall
    rw [hcyc, hflag]
    simp only [Bool.false_or, decide_eq_false_iff_not, ne_eq, not_not]
    omega

/-- Witness for C1 at the two-vertex one-edge graph, iterated in key
order. -/
theorem claim_C1_witness :
    (gAB.is_cyclic [ka, kb] = true ↔
      ((∃ k, k ∈ gsuccs gAB k) ∨
        (gAB.tarjans [ka, kb]).length < gAB.vertices.length)) ∧
    (gAB.direct_cyclic = true → gAB.is_cyclic [ka, kb] = true) ∧
    ((∀ k, gsuccs gAB k = []) → gAB.is_cyclic [ka, kb] = false) ∧
    ((gAB.tarjans [ka, kb]).length < gAB.vertices.length ↔
      ∃ scc ∈ gAB.tarjans [ka, kb], 2 ≤ scc.length) :=
  claim_C1 (Reachable.add_edge _ kb ka (Reachable.add_vertex _ kb none
    (Reachable.add_vertex _ ka none Reachable.empty))) [ka, kb] (by decide)

/-- Claim C4: the result of `is_cyclic` and the component partition do
not depend on the (shuffled) root iteration order: any two permutations
of the key list give the same boolean, the same components as finite
sets, and the same same-component relation. -/
theorem claim_C4 {g : DAGraph} (h : Reachable g) (o1 o2 : List Key)
    (h1 : o1.Perm g.keyList) (h2 : o2.Perm g.keyList) :
    g.is_cyclic o1 = g.is_cyclic o2 ∧
    ((g.tarjans o1).map List.toFinset).Perm ((g.tarjans o2).map List.toFinset) ∧
    (∀ a b, sameSCC (g.tarjans o1) a b ↔ sameSCC (g.tarjans o2) a b) := by
  have hwf := wf_of_reachable h
  have hs1 := tarjans_sccList hwf h1
  have hs2 := tarjans_sccList hwf h2
  have hmap := sccList_map_perm hs1 hs2
  have hlen : (g.tarjans o1).length = (g.tarjans o2).length := by
    have h3 := hmap.length_eq
    rw [List.length_map, List.length_map] at h3
    exact h3
  refine ⟨?_, hmap, ?_⟩
  · show (g.direct_cyclic
        || decide ((g.tarjans o1).length ≠ g.vertices.length)) = _
    rw [hlen]
    rfl
  · intro a b
    rw [sccList_sameSCC hs1 a b, sccList_sameSCC hs2 a b]

/-- Witness for C4 at the two-vertex one-edge graph with the two
possible root orders. -/
theorem claim_C4_witness :
    gAB.is_cyclic [ka, kb] = gAB.is_cyclic [kb, ka] ∧
    ((gAB.tarjans [ka, kb]).map List.toFinset).Perm
      ((gAB.tarjans [kb, ka]).map List.toFinset) ∧
    (∀ a b, sameSCC (gAB.tarjans [ka, kb]) a b ↔
      sameSCC (gAB.tarjans [kb, ka]) a b) :=
  claim_C4 (Reachable.add_edge _ kb ka (Reachable.add_vertex _ kb none
    (Reachable.add_vertex _ ka none Reachable.empty))) [ka, kb] [kb, ka]
    (by decide) (by decide)
